import Mathlib

/-!
# Chunked-inference orchestration layer: formal model

This development embeds the core of `app/nlp.py`:

* `split_text_into_chunks(text, max_chars)` replaces newlines by spaces and
  delegates to Python's `textwrap.wrap(text, max_chars)` with default options
  (`break_long_words=True`, `break_on_hyphens=True`, `drop_whitespace=True`,
  `replace_whitespace=True`, `expand_tabs=True`, `tabsize=8`,
  `max_lines=None`).  The whole `textwrap` algorithm — whitespace munging,
  the `wordsep_re` tokenizer and the greedy line-filling loop with long-word
  breaking — is transcribed below on `List Char`.
* `summarize_text` and `translate_text` are embedded with the inference
  pipelines abstracted as `String → Except ε String` parameters; a Python
  exception raised by a pipeline call is modelled as `Except.error`.

Fidelity notes:
* Character classes: `textwrap` treats exactly `'\t' '\n' '\x0b' '\x0c' '\r' ' '`
  as whitespace (`asciiWs` below).  Python's `str.strip()` / `str.isspace()`
  use the Unicode whitespace table, encoded exactly in `pyIsSpace`.
  The regex class `\w` (used only by the hyphen/em-dash look-arounds of
  `wordsep_re`) is approximated by ASCII alphanumerics plus underscore;
  non-ASCII letters adjacent to hyphens are the only inputs on which the
  model's tokenizer can differ from CPython, and no theorem below depends
  on that corner.
* The loop in `_wrap_chunks` is written with explicit fuel
  (`sumLen chunks + 1` suffices: every iteration consumes at least one
  character), so that all definitions compute.
-/

namespace TextWrap

/-- The six characters `textwrap._whitespace` recognises as whitespace
(`'\t' '\n' '\x0b' '\x0c' '\r' ' '`). -/
def asciiWs (c : Char) : Bool :=
  c == ' ' || c == '\t' || c == '\n' || c.toNat == 11 || c.toNat == 12 || c == '\r'

/-- Python's `str.isspace` / `str.strip` whitespace table (exact list of the
29 Unicode codepoints CPython treats as whitespace). -/
def pyIsSpace (c : Char) : Bool :=
  let n := c.toNat
  decide ((9 ≤ n ∧ n ≤ 13) ∨ (28 ≤ n ∧ n ≤ 32) ∨ n = 0x85 ∨ n = 0xa0 ∨
    n = 0x1680 ∨ (0x2000 ≤ n ∧ n ≤ 0x200a) ∨ n = 0x2028 ∨ n = 0x2029 ∨
    n = 0x202f ∨ n = 0x205f ∨ n = 0x3000)

/-- The regex class `\w`, approximated on ASCII (see the fidelity note). -/
def wordChar (c : Char) : Bool :=
  c.isAlphanum || c == '_'

/-- The regex class `[^\d\W]` (`letter` in `textwrap`). -/
def letterChar (c : Char) : Bool :=
  wordChar c && !c.isDigit

/-- The regex class `[\w!"'&.,?]` (`word_punct` in `textwrap`). -/
def wordPunct (c : Char) : Bool :=
  wordChar c || c == '!' || c == '"' || c == Char.ofNat 39 || c == '&' ||
    c == '.' || c == ',' || c == '?'

/-- Python `str.strip()` on a character list: remove `pyIsSpace` characters
from both ends. -/
def pyStripL (s : List Char) : List Char :=
  ((s.dropWhile pyIsSpace).reverse.dropWhile pyIsSpace).reverse

/-- Python `str.strip()`. -/
def pyStrip (s : String) : String :=
  String.mk (pyStripL s.data)

/-- Python `str.expandtabs(8)`: each tab becomes `8 - col % 8` spaces, the
column counter resetting after `'\r'` and `'\n'`. -/
def expandtabs8 : List Char → Nat → List Char
  | [], _ => []
  | c :: rest, col =>
    if c == '\t' then
      let k := 8 - col % 8
      List.replicate k ' ' ++ expandtabs8 rest (col + k)
    else if c == '\n' || c == '\r' then c :: expandtabs8 rest 0
    else c :: expandtabs8 rest (col + 1)

/-- `str.translate(unicode_whitespace_trans)`: map each of the six
`textwrap` whitespace characters to a space. -/
def translateWs (s : List Char) : List Char :=
  s.map fun c => if asciiWs c then ' ' else c

/-- `TextWrapper._munge_whitespace` with default options: expand tabs, then
replace the recognised whitespace characters by spaces. -/
def munge (s : List Char) : List Char :=
  translateWs (expandtabs8 s 0)

/-- Does the list start with a `word_punct` character? -/
def headWordPunct : List Char → Bool
  | d :: _ => wordPunct d
  | [] => false

/-- Does the list start with a `letter` character? -/
def headLetter : List Char → Bool
  | d :: _ => letterChar d
  | [] => false

/-- Does the list start with a `\w` character? -/
def headWordChar : List Char → Bool
  | d :: _ => wordChar d
  | [] => false

/-- Length of the leading run of hyphens. -/
def hyphenRunLen (s : List Char) : Nat :=
  (s.takeWhile fun c => c == '-').length

/-- The look-ahead `(?= letter -? letter )` of `wordsep_re`. -/
def laLtOptHyphenLt : List Char → Bool
  | a :: b :: rest =>
    letterChar a && (letterChar b || (b == '-' && headLetter rest))
  | _ => false

/-- The look-ahead `(?= -{2,} \w )`: a maximal run of at least two hyphens
followed by a word character. -/
def laEmdash (s : List Char) : Bool :=
  decide (2 ≤ hyphenRunLen s) && headWordChar (s.drop (hyphenRunLen s))

/-- The look-behinds `(?<= letter letter - )` and `(?<= letter - letter - )`
of the hyphenated-word branch; `ctx` lists the characters before the current
position, most recent first. -/
def lbHyphenated : List Char → Bool
  | '-' :: a :: b :: rest =>
    (letterChar a && letterChar b) ||
      (letterChar a && b == '-' && headLetter rest)
  | _ => false

/-- The lazy word alternative `nws+? (...)` of `wordsep_re`: having already
consumed `consumedRev` (most recent first, nonempty; `prevRev` is the text
before the token), return the final token length.  The group alternatives
are tried in the regex's order: hyphenated word, end of word, em-dash
follows. -/
def wordTokenGo (prevRev : List Char) : List Char → List Char → Nat
  | consumedRev, [] => consumedRev.length
  | consumedRev, c :: rest =>
    if c == '-' && lbHyphenated ('-' :: (consumedRev ++ prevRev)) &&
        laLtOptHyphenLt rest then
      consumedRev.length + 1
    else if asciiWs c then consumedRev.length
    else if headWordPunct consumedRev && laEmdash (c :: rest) then
      consumedRev.length
    else wordTokenGo prevRev (c :: consumedRev) rest

/-- Length of the word token starting the nonempty suffix `s`. -/
def wordToken (prevRev : List Char) : List Char → Nat
  | [] => 0
  | c :: rest => wordTokenGo prevRev [c] rest

/-- One `wordsep_re` token at the head of `s` (nonempty): a maximal
whitespace run, an em-dash run (when preceded by `word_punct` and followed
by a word character), or a lazy word. -/
def nextToken (prevRev s : List Char) : List Char :=
  match s with
  | [] => []
  | c :: _ =>
    if asciiWs c then s.takeWhile asciiWs
    else if headWordPunct prevRev && laEmdash s then
      s.takeWhile fun d => d == '-'
    else s.take (wordToken prevRev s)

/-- `TextWrapper._split` (with `break_on_hyphens=True`): scan the text,
emitting `wordsep_re` tokens; `prevRev` carries the consumed prefix (most
recent first) for the look-behinds. -/
def tokenizeGo : Nat → List Char → List Char → List (List Char)
  | 0, _, _ => []
  | _ + 1, _, [] => []
  | fuel + 1, prevRev, c :: rest =>
    let tok := nextToken prevRev (c :: rest)
    tok :: tokenizeGo fuel (tok.reverse ++ prevRev) ((c :: rest).drop tok.length)

/-- The token list of `s` (tokens are nonempty and concatenate to `s`). -/
def tokenize (s : List Char) : List (List Char) :=
  tokenizeGo (s.length + 1) [] s

/-- Total number of characters in a chunk list. -/
def sumLen (chunks : List (List Char)) : Nat :=
  (chunks.map List.length).sum

/-- The inner loop of `_wrap_chunks`: pop chunks onto the current line while
the accumulated length stays within `w`. -/
def takeGreedy (w : Nat) : Nat → List (List Char) → List (List Char) × List (List Char)
  | _, [] => ([], [])
  | curLen, c :: rest =>
    if curLen + c.length ≤ w then
      let p := takeGreedy w (curLen + c.length) rest
      (c :: p.1, p.2)
    else ([], c :: rest)

/-- Python `chunk.rfind('-', 0, e)`: index of the last hyphen among the
first `e` characters, if any. -/
def rfindHyphenAux : List Char → Nat → Option Nat
  | [], _ => none
  | c :: rest, i =>
    match rfindHyphenAux rest (i + 1) with
    | some j => some j
    | none => if c == '-' then some i else none

/-- Python `chunk.rfind('-', 0, e)` as an `Option`. -/
def rfindHyphen (s : List Char) (e : Nat) : Option Nat :=
  rfindHyphenAux (s.take e) 0

/-- `TextWrapper._handle_long_word` with `break_long_words=True` and
`break_on_hyphens=True`: split off as much of the chunk as fits (preferring
to cut just after a hyphen preceded by a non-hyphen). -/
def handleLongWord (M curLen : Nat) (chunk : List Char) : List Char × List Char :=
  let spaceLeft := if M < 1 then 1 else M - curLen
  let e :=
    if spaceLeft < chunk.length then
      match rfindHyphen chunk spaceLeft with
      | some h =>
        if 0 < h && (chunk.take h).any (fun d => !(d == '-')) then h + 1
        else spaceLeft
      | none => spaceLeft
    else spaceLeft
  (chunk.take e, chunk.drop e)

/-- The leading-whitespace drop at the top of each `_wrap_chunks` iteration
(`drop_whitespace=True`): the first chunk of the line is dropped when it is
pure whitespace, unless no line has been produced yet. -/
def dropLead (first : Bool) (chunks : List (List Char)) : List (List Char) :=
  match chunks with
  | c :: rest => if !first && pyStripL c == [] then rest else chunks
  | [] => []

/-- The trailing-whitespace drop at the bottom of each `_wrap_chunks`
iteration: the last chunk of the line is removed when it is pure
whitespace. -/
def dropTrail (curLine : List (List Char)) : List (List Char) :=
  match curLine.getLast? with
  | some last => if pyStripL last == [] then curLine.dropLast else curLine
  | none => []

/-- The body of one `_wrap_chunks` iteration after the leading-whitespace
drop: greedy filling, the long-word break, the trailing-whitespace drop, and
the line emission. -/
def wrapCore (M : Nat) (chunks1 : List (List Char)) :
    Option (List Char) × List (List Char) :=
  let p := takeGreedy M 0 chunks1
  let q :=
    match p.2 with
    | c :: r =>
      if M < c.length then
        let hw := handleLongWord M (sumLen p.1) c
        (p.1 ++ [hw.1], hw.2 :: r)
      else (p.1, p.2)
    | [] => (p.1, ([] : List (List Char)))
  let curLine := dropTrail q.1
  if curLine.isEmpty then (none, q.2) else (some curLine.flatten, q.2)

/-- One iteration of the `while chunks` loop of `_wrap_chunks` (with
`drop_whitespace=True`, no indents, `max_lines=None`): returns the produced
line, if any, and the remaining chunks.  `first` records that no line has
been produced yet (`lines` still empty in Python). -/
def wrapStep (M : Nat) (first : Bool) (chunks : List (List Char)) :
    Option (List Char) × List (List Char) :=
  wrapCore M (dropLead first chunks)

/-- The `while chunks` loop of `_wrap_chunks`, with fuel. -/
def wrapLoop (M : Nat) : Nat → Bool → List (List Char) → List (List Char)
  | 0, _, _ => []
  | _ + 1, _, [] => []
  | fuel + 1, first, c :: rest =>
    match wrapStep M first (c :: rest) with
    | (some line, rest2) => line :: wrapLoop M fuel false rest2
    | (none, rest2) => wrapLoop M fuel first rest2

/-- `textwrap.wrap(s, M)` with default options, on character lists. -/
def wrapL (M : Nat) (s : List Char) : List (List Char) :=
  let chunks := tokenize (munge s)
  wrapLoop M (sumLen chunks + 1) true chunks

end TextWrap

namespace Nlp

open TextWrap

/-- `split_text_into_chunks(text, max_chars)` from `app/nlp.py`:
`text.replace("\n", " ")` followed by `textwrap.wrap(text, max_chars)`. -/
def split_text_into_chunks (text : String) (maxChars : Nat) : List String :=
  (wrapL maxChars (text.data.map fun c => if c == '\n' then ' ' else c)).map
    fun l => String.mk l

/-- `" ".join(...)`. -/
def joinSpace (xs : List String) : String :=
  String.intercalate " " xs

/-- The per-chunk pipeline loop shared by `summarize_text` and
`translate_text`: invoke the pipeline on each chunk in order, collecting the
outputs; a raised exception (modelled as `Except.error`) aborts the whole
loop at once, discarding the partial list. -/
def processChunks {ε : Type} (f : String → Except ε String) :
    List String → Except ε (List String)
  | [] => Except.ok []
  | c :: rest =>
    match f c with
    | Except.error e => Except.error e
    | Except.ok r =>
      match processChunks f rest with
      | Except.error e => Except.error e
      | Except.ok rs => Except.ok (r :: rs)

/-- `summarize_text(text, min_length, max_length)` from `app/nlp.py`, with
the summarization pipeline abstracted as `summarizer`. -/
def summarize_text {ε : Type} (summarizer : String → Nat → Nat → Except ε String)
    (text : String) (minLength maxLength : Nat) : Except ε String :=
  let t := pyStrip text
  if t = "" then Except.ok "Please enter some text to summarize."
  else
    match processChunks (fun c => summarizer c minLength maxLength)
        (split_text_into_chunks t 1024) with
    | Except.error e => Except.error e
    | Except.ok rs => Except.ok (joinSpace rs)

/-- The chunk-process-recombine tail of `translate_text` once a pipeline has
been selected. -/
def runTranslation {ε : Type} (p : String → Except ε String) (t : String) :
    Except ε String :=
  match processChunks p (split_text_into_chunks t 512) with
  | Except.error e => Except.error e
  | Except.ok rs => Except.ok (joinSpace rs)

/-- `translate_text(text, source_language, target_language)` from
`app/nlp.py`, with the two directional pipelines abstracted. -/
def translate_text {ε : Type} (translatorEnAr translatorArEn : String → Except ε String)
    (text sourceLanguage targetLanguage : String) : Except ε String :=
  let t := pyStrip text
  if t = "" then Except.ok "Please enter some text to translate."
  else if sourceLanguage = targetLanguage then
    Except.ok "Source and target languages must be different."
  else if sourceLanguage = "en" ∧ targetLanguage = "ar" then
    runTranslation translatorEnAr t
  else if sourceLanguage = "ar" ∧ targetLanguage = "en" then
    runTranslation translatorArEn t
  else Except.ok "Unsupported language pair. Use 'en' or 'ar'."

end Nlp

namespace TextWrap

@[simp]
theorem sumLen_nil : sumLen [] = 0 := rfl

@[simp]
theorem sumLen_cons (c : List Char) (l : List (List Char)) :
    sumLen (c :: l) = c.length + sumLen l := by
  simp [sumLen]

@[simp]
theorem sumLen_append (a b : List (List Char)) :
    sumLen (a ++ b) = sumLen a + sumLen b := by
  simp [sumLen]

theorem sumLen_dropLast_le (l : List (List Char)) : sumLen l.dropLast ≤ sumLen l := by
  induction l with
  | nil => simp
  | cons c rest ih =>
    cases rest with
    | nil => simp [sumLen]
    | cons d r =>
      simp only [List.dropLast_cons₂, sumLen_cons]
      exact Nat.add_le_add_left ih _

theorem flatten_length_eq_sumLen (l : List (List Char)) :
    l.flatten.length = sumLen l := by
  induction l with
  | nil => rfl
  | cons c rest ih => simp [ih]

theorem takeGreedy_append (w : Nat) :
    ∀ (curLen : Nat) (chunks : List (List Char)),
      (takeGreedy w curLen chunks).1 ++ (takeGreedy w curLen chunks).2 = chunks := by
  intro curLen chunks
  induction chunks generalizing curLen with
  | nil => simp [takeGreedy]
  | cons c rest ih =>
    by_cases h : curLen + c.length ≤ w
    · simp [takeGreedy, h, ih]
    · simp [takeGreedy, h]

theorem takeGreedy_bound (w : Nat) :
    ∀ (curLen : Nat) (chunks : List (List Char)),
      (takeGreedy w curLen chunks).1 = [] ∨
        curLen + sumLen (takeGreedy w curLen chunks).1 ≤ w := by
  intro curLen chunks
  induction chunks generalizing curLen with
  | nil => left; simp [takeGreedy]
  | cons c rest ih =>
    by_cases h : curLen + c.length ≤ w
    · right
      rcases ih (curLen + c.length) with h2 | h2
      · simp [takeGreedy, h, h2]
      · simpa [takeGreedy, h, Nat.add_assoc] using h2
    · left; simp [takeGreedy, h]

theorem rfindHyphenAux_lt :
    ∀ (l : List Char) (i j : Nat), rfindHyphenAux l i = some j → j < i + l.length := by
  intro l
  induction l with
  | nil => intro i j h; simp [rfindHyphenAux] at h
  | cons c rest ih =>
    intro i j h
    simp only [rfindHyphenAux] at h
    cases hr : rfindHyphenAux rest (i + 1) with
    | some k =>
      rw [hr] at h
      have := ih (i + 1) j (by rw [hr, ← h])
      simpa [Nat.add_comm, Nat.add_assoc, Nat.add_left_comm] using Nat.lt_of_lt_of_le this
        (by simp [Nat.add_comm, Nat.add_assoc, Nat.add_left_comm])
    | none =>
      rw [hr] at h
      by_cases hc : c == '-'
      · simp [hc] at h
        subst h
        simp
      · simp [hc] at h

theorem rfindHyphen_lt {s : List Char} {e h : Nat} (hh : rfindHyphen s e = some h) :
    h < e := by
  have := rfindHyphenAux_lt (s.take e) 0 h hh
  have hle : (s.take e).length ≤ e := by simp
  omega

theorem handleLongWord_append (M curLen : Nat) (c : List Char) :
    (handleLongWord M curLen c).1 ++ (handleLongWord M curLen c).2 = c := by
  simp [handleLongWord]

theorem handleLongWord_piece_le (M curLen : Nat) (c : List Char) (hM : 1 ≤ M) :
    (handleLongWord M curLen c).1.length ≤ M - curLen := by
  have hM' : ¬ M < 1 := by omega
  simp only [handleLongWord, hM', if_false]
  set sl := M - curLen with hsl
  have he : ∀ e, e ≤ sl → (c.take e).length ≤ M - curLen := by
    intro e hesl
    simp only [List.length_take]
    omega
  by_cases h1 : sl < c.length
  · simp only [h1, if_true]
    cases hr : rfindHyphen c sl with
    | some h =>
      have hlt := rfindHyphen_lt hr
      by_cases h2 : 0 < h ∧ (c.take h).any (fun d => !(d == '-'))
      · have h2' : (0 < h && (c.take h).any (fun d => !(d == '-'))) = true := by
          simp [h2.1, h2.2]
        simp only [h2', if_true]
        exact he (h + 1) (by omega)
      · have h2' : (0 < h && (c.take h).any (fun d => !(d == '-'))) = false := by
          rcases Decidable.not_and_iff_or_not.mp h2 with h3 | h3
          · simp [Nat.le_zero.mp (Nat.not_lt.mp h3)]
          · simp only [Bool.and_eq_false_iff]
            right
            exact Bool.eq_false_iff.mpr h3
        simp only [h2', if_false]
        exact he sl le_rfl
    | none => exact he sl le_rfl
  · simp only [h1, if_false]
    exact he sl le_rfl

theorem handleLongWord_rest_ne (M curLen : Nat) (c : List Char)
    (hM : 1 ≤ M) (hcl : curLen ≤ M) (hc : M < c.length) :
    (handleLongWord M curLen c).2 ≠ [] := by
  have hM' : ¬ M < 1 := by omega
  simp only [handleLongWord, hM', if_false]
  set sl := M - curLen with hsl
  have hsub : ∀ e, e ≤ sl → c.drop e ≠ [] := by
    intro e hesl
    have : e < c.length := by omega
    simp [← List.length_pos, this]
  have h1 : sl < c.length := by omega
  simp only [h1, if_true]
  cases hr : rfindHyphen c sl with
  | some h =>
    have hlt := rfindHyphen_lt hr
    by_cases h2 : (0 < h && (c.take h).any (fun d => !(d == '-'))) = true
    · simp only [h2, if_true]
      exact hsub (h + 1) (by omega)
    · simp only [Bool.not_eq_true] at h2
      simp only [h2, if_false]
      exact hsub sl le_rfl
  | none => exact hsub sl le_rfl

/-- All chunks in a list are nonempty. -/
def AllNE (chunks : List (List Char)) : Prop := ∀ c ∈ chunks, c ≠ []

theorem AllNE_of_append_left {a b : List (List Char)} (h : AllNE (a ++ b)) : AllNE a :=
  fun c hc => h c (List.mem_append_left b hc)

theorem AllNE_of_append_right {a b : List (List Char)} (h : AllNE (a ++ b)) : AllNE b :=
  fun c hc => h c (List.mem_append_right a hc)

theorem pyStripL_ne_nil {l : List Char} (h : pyStripL l ≠ []) : l ≠ [] := by
  intro hl
  subst hl
  exact h rfl

theorem dropTrail_allNE {q1 : List (List Char)} (h : AllNE q1.dropLast) :
    AllNE (dropTrail q1) := by
  unfold dropTrail
  cases hq : q1.getLast? with
  | none => intro c hc; cases hc
  | some last =>
    by_cases hl : pyStripL last == []
    · simpa [hl] using h
    · simp only [hl, if_false]
      have hlast : last ≠ [] := pyStripL_ne_nil (by simpa using hl)
      intro c hc
      have hq1ne : q1 ≠ [] := by
        intro h0; subst h0; simp at hq
      rw [← List.dropLast_append_getLast hq1ne] at hc
      rcases List.mem_append.mp hc with hc | hc
      · exact h c hc
      · have : c = q1.getLast hq1ne := by simpa using hc
        subst this
        have : q1.getLast hq1ne = last := by
          have := List.getLast?_eq_getLast q1 hq1ne
          rw [hq] at this
          exact (Option.some.injEq _ _).mp this.symm
        rwa [this]

theorem dropTrail_sumLen_le (q1 : List (List Char)) :
    sumLen (dropTrail q1) ≤ sumLen q1 := by
  unfold dropTrail
  cases q1.getLast? with
  | none => simp
  | some last =>
    by_cases hl : pyStripL last == []
    · simp only [hl, if_true]
      exact sumLen_dropLast_le q1
    · simp [hl]

theorem dropTrail_subset (q1 : List (List Char)) :
    ∀ c ∈ dropTrail q1, c ∈ q1 := by
  unfold dropTrail
  cases q1.getLast? with
  | none => intro c hc; cases hc
  | some last =>
    by_cases hl : pyStripL last == []
    · simp only [hl, if_true]
      exact fun c hc => (List.dropLast_sublist q1).subset hc
    · simp [hl]

theorem flatten_ne_nil_of_allNE {l : List (List Char)} (hne : AllNE l) (h : l ≠ []) :
    l.flatten ≠ [] := by
  cases l with
  | nil => exact absurd rfl h
  | cons c rest =>
    have hc : c ≠ [] := hne c (List.mem_cons_self c rest)
    simp only [List.flatten_cons]
    intro h0
    exact hc (List.append_eq_nil.mp h0).1

theorem mem_flatten_of_subset {a b : List (List Char)} (h : ∀ c ∈ a, c ∈ b) :
    ∀ ch ∈ a.flatten, ch ∈ b.flatten := by
  intro ch hch
  obtain ⟨l, hl, hchl⟩ := List.mem_flatten.mp hch
  exact List.mem_flatten.mpr ⟨l, h l hl, hchl⟩

/-- The single-iteration invariant: a produced line is nonempty, within the
width bound, and made of characters of the input chunks; the remaining
chunks are nonempty and also drawn from the input characters. -/
theorem wrapCore_spec (M : Nat) (hM : 1 ≤ M) (chunks1 : List (List Char))
    (hne : AllNE chunks1) :
    (∀ line, (wrapCore M chunks1).1 = some line →
      line ≠ [] ∧ line.length ≤ M ∧ ∀ ch ∈ line, ch ∈ chunks1.flatten) ∧
    AllNE (wrapCore M chunks1).2 ∧
    (∀ ch ∈ (wrapCore M chunks1).2.flatten, ch ∈ chunks1.flatten) := by
  have key : ∀ (q1 q2 : List (List Char)),
      sumLen q1 ≤ M → AllNE q1.dropLast →
      (∀ ch ∈ q1.flatten, ch ∈ chunks1.flatten) → AllNE q2 →
      (∀ ch ∈ q2.flatten, ch ∈ chunks1.flatten) →
      (∀ line, (if (dropTrail q1).isEmpty then ((none : Option (List Char)), q2)
          else (some (dropTrail q1).flatten, q2)).1 = some line →
        line ≠ [] ∧ line.length ≤ M ∧ ∀ ch ∈ line, ch ∈ chunks1.flatten) ∧
      AllNE (if (dropTrail q1).isEmpty then ((none : Option (List Char)), q2)
          else (some (dropTrail q1).flatten, q2)).2 ∧
      (∀ ch ∈ (if (dropTrail q1).isEmpty then ((none : Option (List Char)), q2)
          else (some (dropTrail q1).flatten, q2)).2.flatten, ch ∈ chunks1.flatten) := by
    intro q1 q2 hsum hdrop hsub hne2 hsub2
    by_cases hemp : (dropTrail q1).isEmpty
    · simp only [hemp, if_true]
      refine ⟨fun line h0 => ?_, hne2, hsub2⟩
      exact absurd h0 (by simp)
    · simp only [hemp, if_false]
      refine ⟨?_, hne2, hsub2⟩
      intro line h0
      injection h0 with h0
      subst h0
      have hdne : AllNE (dropTrail q1) := dropTrail_allNE hdrop
      have hdnn : dropTrail q1 ≠ [] := by
        intro h0
        rw [h0] at hemp
        exact hemp rfl
      refine ⟨flatten_ne_nil_of_allNE hdne hdnn, ?_, ?_⟩
      · rw [flatten_length_eq_sumLen]
        exact le_trans (dropTrail_sumLen_le q1) hsum
      · intro ch hch
        exact hsub ch (mem_flatten_of_subset (dropTrail_subset q1) ch hch)
  rcases hpq : takeGreedy M 0 chunks1 with ⟨taken, rest⟩
  have hpapp : taken ++ rest = chunks1 := by
    have := takeGreedy_append M 0 chunks1
    rw [hpq] at this
    exact this
  have hpsum : sumLen taken ≤ M := by
    rcases takeGreedy_bound M 0 chunks1 with h | h <;> rw [hpq] at h
    · simp only at h; simp [h]
    · simpa using h
  have hp1ne : AllNE taken := AllNE_of_append_left (hpapp ▸ hne)
  have hp2ne : AllNE rest := AllNE_of_append_right (hpapp ▸ hne)
  have hp1sub : ∀ c ∈ taken, c ∈ chunks1 := fun c hc => hpapp ▸ List.mem_append_left _ hc
  have hp2sub : ∀ c ∈ rest, c ∈ chunks1 := fun c hc => hpapp ▸ List.mem_append_right _ hc
  cases rest with
  | nil =>
    simp only [wrapCore, hpq]
    exact key taken [] hpsum (fun c hc => hp1ne c ((List.dropLast_sublist taken).subset hc))
      (mem_flatten_of_subset hp1sub) (by intro c hc; cases hc) (by intro ch hch; simp at hch)
  | cons c r =>
    have hcne : c ∈ c :: r := List.mem_cons_self c r
    by_cases hlen : M < c.length
    · simp only [wrapCore, hpq, hlen, if_true]
      rcases hhw : handleLongWord M (sumLen taken) c with ⟨piece, rem⟩
      have hwapp : piece ++ rem = c := by
        have := handleLongWord_append M (sumLen taken) c
        rw [hhw] at this
        exact this
      have hwlen : piece.length ≤ M - sumLen taken := by
        have := handleLongWord_piece_le M (sumLen taken) c hM
        rw [hhw] at this
        exact this
      have hwrest : rem ≠ [] := by
        have := handleLongWord_rest_ne M (sumLen taken) c hM hpsum hlen
        rw [hhw] at this
        exact this
      refine key (taken ++ [piece]) (rem :: r) ?_ ?_ ?_ ?_ ?_
      · simp only [sumLen_append, sumLen_cons, sumLen_nil]
        omega
      · intro x hx
        rw [List.dropLast_concat] at hx
        exact hp1ne x hx
      · intro ch hch
        rcases List.mem_flatten.mp hch with ⟨l, hl, hchl⟩
        rcases List.mem_append.mp hl with hl | hl
        · exact List.mem_flatten.mpr ⟨l, hp1sub l hl, hchl⟩
        · have : l = piece := by simpa using hl
          subst this
          have : ch ∈ c := hwapp ▸ List.mem_append_left _ hchl
          exact List.mem_flatten.mpr ⟨c, hp2sub c hcne, this⟩
      · intro x hx
        rcases List.mem_cons.mp hx with rfl | hx
        · exact hwrest
        · exact hp2ne x (List.mem_cons_of_mem c hx)
      · intro ch hch
        rcases List.mem_flatten.mp hch with ⟨l, hl, hchl⟩
        rcases List.mem_cons.mp hl with rfl | hl
        · have : ch ∈ c := hwapp ▸ List.mem_append_right _ hchl
          exact List.mem_flatten.mpr ⟨c, hp2sub c hcne, this⟩
        · exact List.mem_flatten.mpr ⟨l, hp2sub l (List.mem_cons_of_mem c hl), hchl⟩
    · simp only [wrapCore, hpq, hlen, if_false]
      exact key taken (c :: r) hpsum
        (fun x hx => hp1ne x ((List.dropLast_sublist taken).subset hx))
        (mem_flatten_of_subset hp1sub) hp2ne (mem_flatten_of_subset hp2sub)

theorem dropLead_subset (first : Bool) (chunks : List (List Char)) :
    ∀ c ∈ dropLead first chunks, c ∈ chunks := by
  unfold dropLead
  cases chunks with
  | nil => intro c hc; cases hc
  | cons c rest =>
    by_cases h : (!first && pyStripL c == []) = true
    · simp only [h, if_true]
      exact fun x hx => List.mem_cons_of_mem c hx
    · have h' : (!first && pyStripL c == []) = false := Bool.eq_false_iff.mpr h
      simp only [h', if_false]
      intro x hx
      exact hx

theorem wrapStep_spec (M : Nat) (hM : 1 ≤ M) (first : Bool)
    (chunks : List (List Char)) (hne : AllNE chunks) :
    (∀ line, (wrapStep M first chunks).1 = some line →
      line ≠ [] ∧ line.length ≤ M ∧ ∀ ch ∈ line, ch ∈ chunks.flatten) ∧
    AllNE (wrapStep M first chunks).2 ∧
    (∀ ch ∈ (wrapStep M first chunks).2.flatten, ch ∈ chunks.flatten) := by
  have hsub := dropLead_subset first chunks
  have hne1 : AllNE (dropLead first chunks) := fun c hc => hne c (hsub c hc)
  obtain ⟨h1, h2, h3⟩ := wrapCore_spec M hM (dropLead first chunks) hne1
  refine ⟨?_, h2, ?_⟩
  · intro line hl
    obtain ⟨a, b, c⟩ := h1 line hl
    exact ⟨a, b, fun ch hch => mem_flatten_of_subset hsub ch (c ch hch)⟩
  · intro ch hch
    exact mem_flatten_of_subset hsub ch (h3 ch hch)

/-- Cutting a list into consecutive pieces of `M` characters (the last piece
possibly shorter); the reference behaviour of the chunker on a single long
word without hyphens. -/
def chopGo (M : Nat) : Nat → List Char → List (List Char)
  | 0, _ => []
  | _ + 1, [] => []
  | fuel + 1, c :: rest => (c :: rest).take M :: chopGo M fuel ((c :: rest).drop M)

/-- `chop M s` cuts `s` into `⌈|s| / M⌉` consecutive pieces of at most `M`
characters each. -/
def chop (M : Nat) (s : List Char) : List (List Char) :=
  chopGo M (s.length + 1) s

theorem wordTokenGo_ge (prevRev : List Char) :
    ∀ (rest consumedRev : List Char),
      consumedRev.length ≤ wordTokenGo prevRev consumedRev rest := by
  intro rest
  induction rest with
  | nil => intro consumedRev; simp [wordTokenGo]
  | cons c r ih =>
    intro consumedRev
    rw [wordTokenGo]
    split
    · omega
    · split
      · exact le_rfl
      · split
        · exact le_rfl
        · calc consumedRev.length ≤ (c :: consumedRev).length := by simp
            _ ≤ wordTokenGo prevRev (c :: consumedRev) r := ih (c :: consumedRev)

theorem wordToken_pos (prevRev : List Char) {s : List Char} (h : s ≠ []) :
    1 ≤ wordToken prevRev s := by
  cases s with
  | nil => exact absurd rfl h
  | cons c rest =>
    calc 1 = ([c] : List Char).length := rfl
      _ ≤ wordTokenGo prevRev [c] rest := wordTokenGo_ge prevRev rest [c]

theorem nextToken_ne (prevRev : List Char) {s : List Char} (h : s ≠ []) :
    nextToken prevRev s ≠ [] := by
  cases s with
  | nil => exact absurd rfl h
  | cons c rest =>
    rw [nextToken]
    split
    · next h1 =>
      simp [List.takeWhile_cons, h1]
    · split
      · next h1 h2 =>
        have hrun : 2 ≤ hyphenRunLen (c :: rest) := by
          have := (Bool.and_eq_true _ _).mp h2 |>.2
          simp only [laEmdash, Bool.and_eq_true, decide_eq_true_eq] at this
          exact this.1
        intro h0
        have : hyphenRunLen (c :: rest) = 0 := by
          simpa [hyphenRunLen] using congrArg List.length h0
        omega
      · have hpos := wordToken_pos prevRev (s := c :: rest) (by simp)
        intro h0
        have := congrArg List.length h0
        simp only [List.length_take, List.length_nil, List.length_cons] at this
        omega

theorem nextToken_front (prevRev s : List Char) :
    nextToken prevRev s <+: s := by
  cases s with
  | nil => simp [nextToken]
  | cons c rest =>
    rw [nextToken]
    split
    · exact List.takeWhile_prefix _
    · split
      · exact List.takeWhile_prefix _
      · exact List.take_prefix _ _

theorem tokenizeGo_mem :
    ∀ (fuel : Nat) (prevRev s : List Char) (tok : List Char),
      tok ∈ tokenizeGo fuel prevRev s → tok ≠ [] ∧ ∀ ch ∈ tok, ch ∈ s := by
  intro fuel
  induction fuel with
  | zero => intro _ _ _ h; cases h
  | succ n ih =>
    intro prevRev s tok h
    cases s with
    | nil => cases h
    | cons c rest =>
      simp only [tokenizeGo] at h
      rcases List.mem_cons.mp h with rfl | h
      · refine ⟨nextToken_ne prevRev (by simp), ?_⟩
        intro ch hch
        exact (nextToken_front prevRev (c :: rest)).sublist.subset hch
      · obtain ⟨hne, hsub⟩ := ih _ _ tok h
        refine ⟨hne, fun ch hch => ?_⟩
        exact List.mem_of_mem_drop (hsub ch hch)

theorem tokenize_allNE (s : List Char) : AllNE (tokenize s) :=
  fun tok h => (tokenizeGo_mem _ _ _ tok h).1

theorem tokenize_chars {s : List Char} {tok : List Char} (h : tok ∈ tokenize s) :
    ∀ ch ∈ tok, ch ∈ s :=
  (tokenizeGo_mem _ _ _ tok h).2

theorem munge_no_newline (s : List Char) : ∀ ch ∈ munge s, ch ≠ '\n' := by
  intro ch hch
  simp only [munge, translateWs, List.mem_map] at hch
  obtain ⟨x, _, hx⟩ := hch
  by_cases ha : asciiWs x
  · rw [← hx]
    simp [ha]
  · simp only [Bool.not_eq_true] at ha
    rw [← hx]
    simp only [ha, if_false, Bool.false_eq_true]
    intro h0
    rw [h0] at ha
    simp [asciiWs] at ha

theorem takeWhile_eq_self_of_forall {p : Char → Bool} :
    ∀ {s : List Char}, (∀ c ∈ s, p c) → s.takeWhile p = s := by
  intro s
  induction s with
  | nil => intro _; rfl
  | cons c rest ih =>
    intro h
    rw [List.takeWhile_cons, if_pos (h c (List.mem_cons_self c rest))]
    rw [ih fun x hx => h x (List.mem_cons_of_mem c hx)]

theorem pyStripL_eq_nil_of_space {l : List Char} (h : ∀ c ∈ l, c = ' ') :
    pyStripL l = [] := by
  have hdrop : l.dropWhile pyIsSpace = [] := by
    rw [List.dropWhile_eq_nil_iff]
    intro c hc
    rw [h c hc]
    decide
  simp [pyStripL, hdrop]

theorem expandtabs8_ws :
    ∀ (s : List Char) (col : Nat), (∀ c ∈ s, asciiWs c) →
      ∀ c ∈ expandtabs8 s col, asciiWs c := by
  intro s
  induction s with
  | nil => intro col _ c hc; cases hc
  | cons a rest ih =>
    intro col h c hc
    have ha := h a (List.mem_cons_self a rest)
    have hrest : ∀ x ∈ rest, asciiWs x := fun x hx => h x (List.mem_cons_of_mem a hx)
    rw [expandtabs8] at hc
    by_cases h1 : a == '\t'
    · rw [if_pos h1] at hc
      rcases List.mem_append.mp hc with hc | hc
      · have := List.eq_of_mem_replicate hc
        subst this
        decide
      · exact ih _ hrest c hc
    · rw [if_neg h1] at hc
      by_cases h2 : (a == '\n' || a == '\r') = true
      · rw [if_pos h2] at hc
        rcases List.mem_cons.mp hc with rfl | hc
        · exact ha
        · exact ih 0 hrest c hc
      · rw [if_neg h2] at hc
        rcases List.mem_cons.mp hc with rfl | hc
        · exact ha
        · exact ih _ hrest c hc

theorem munge_all_space {s : List Char} (h : ∀ c ∈ s, asciiWs c) :
    ∀ c ∈ munge s, c = ' ' := by
  intro c hc
  simp only [munge, translateWs, List.mem_map] at hc
  obtain ⟨x, hx, hxc⟩ := hc
  have : asciiWs x := expandtabs8_ws s 0 h x hx
  rw [← hxc, if_pos this]

theorem tokenizeGo_nil (fuel : Nat) (prevRev : List Char) :
    tokenizeGo fuel prevRev [] = [] := by
  cases fuel <;> rfl

theorem tokenize_all_ws {s : List Char} (h : ∀ c ∈ s, asciiWs c) (hne : s ≠ []) :
    tokenize s = [s] := by
  cases s with
  | nil => exact absurd rfl hne
  | cons c rest =>
    have hc := h c (List.mem_cons_self c rest)
    rw [tokenize, tokenizeGo]
    rw [show nextToken [] (c :: rest) = (c :: rest).takeWhile asciiWs by
      rw [nextToken, if_pos hc]]
    rw [takeWhile_eq_self_of_forall h]
    rw [List.drop_length, tokenizeGo_nil]

theorem wrapLoop_nil (M fuel : Nat) (first : Bool) :
    wrapLoop M fuel first [] = [] := by
  cases fuel <;> rfl

theorem wrapLoop_single_space (M : Nat) :
    ∀ (fuel : Nat) (first : Bool) (w : List Char), (∀ c ∈ w, c = ' ') →
      wrapLoop M fuel first [w] = [] := by
  intro fuel
  induction fuel with
  | zero => intro first w _; rfl
  | succ n ih =>
    intro first w hw
    have hstrip : pyStripL w = [] := pyStripL_eq_nil_of_space hw
    rw [wrapLoop]
    have hii : ∀ rest2, wrapStep M first [w] = (none, rest2) →
        (match wrapStep M first [w] with
          | (some line, rest2) => line :: wrapLoop M n false rest2
          | (none, rest2) => wrapLoop M n first rest2) = wrapLoop M n first rest2 := by
      intro rest2 hstep
      rw [hstep]
    by_cases hfirst : (!first && pyStripL w == []) = true
    · -- leading drop: the whitespace chunk is dropped, nothing remains
      have hdl : dropLead first [w] = [] := by
        simp only [dropLead]
        rw [if_pos hfirst]
      have hstep : wrapStep M first [w] = (none, []) := by
        rw [wrapStep, hdl]
        rfl
      rw [hii [] hstep, wrapLoop_nil]
    · have hdl : dropLead first [w] = [w] := by
        simp only [dropLead]
        rw [if_neg hfirst]
      by_cases hlen : w.length ≤ M
      · -- the whole chunk fits; it is dropped as trailing whitespace
        have htg : takeGreedy M 0 [w] = ([w], []) := by
          rw [takeGreedy]
          simp only [Nat.zero_add, hlen, if_true]
          rfl
        have hstep : wrapStep M first [w] = (none, []) := by
          rw [wrapStep, hdl, wrapCore]
          rw [htg]
          simp only [dropTrail, List.getLast?_singleton]
          rw [if_pos (by rw [hstrip]; rfl)]
        rw [hii [] hstep, wrapLoop_nil]
      · -- the chunk exceeds the width: a piece is split off and dropped,
        -- the remainder is processed recursively
        have htg : takeGreedy M 0 [w] = ([], [w]) := by
          rw [takeGreedy]
          simp only [Nat.zero_add, hlen, if_false]
        have hM : M < w.length := Nat.not_le.mp hlen
        rcases hhw : handleLongWord M (sumLen []) w with ⟨piece, rem⟩
        have happ : piece ++ rem = w := by
          have := handleLongWord_append M (sumLen []) w
          rw [hhw] at this
          exact this
        have hpw : ∀ c ∈ piece, c = ' ' :=
          fun c hc => hw c (happ ▸ List.mem_append_left _ hc)
        have hrw : ∀ c ∈ rem, c = ' ' :=
          fun c hc => hw c (happ ▸ List.mem_append_right _ hc)
        have hstep : wrapStep M first [w] = (none, [rem]) := by
          rw [wrapStep, hdl, wrapCore]
          rw [htg]
          simp only [hM, if_true, hhw]
          simp only [List.nil_append]
          simp only [dropTrail, List.getLast?_singleton]
          rw [if_pos (by rw [pyStripL_eq_nil_of_space hpw]; rfl)]
        rw [hii [rem] hstep]
        exact ih first rem hrw

theorem pyStripL_eq_nil_iff {l : List Char} :
    pyStripL l = [] ↔ ∀ c ∈ l, pyIsSpace c := by
  constructor
  · intro h c hc
    by_contra hns
    simp only [pyStripL, List.reverse_eq_nil_iff, List.dropWhile_eq_nil_iff] at h
    have h1 : c ∈ l.dropWhile pyIsSpace := by
      rcases List.mem_append.mp ((List.takeWhile_append_dropWhile (p := pyIsSpace) (l := l)) ▸ hc) with h1 | h1
      · exact absurd (List.mem_takeWhile_imp h1) hns
      · exact h1
    exact hns (h c (List.mem_reverse.mpr h1))
  · intro h
    have h1 : l.dropWhile pyIsSpace = [] := List.dropWhile_eq_nil_iff.mpr fun c hc => h c hc
    simp [pyStripL, h1]

theorem mem_pyStripL_of_not_space {l : List Char} {c : Char} (hc : c ∈ l)
    (hns : ¬ pyIsSpace c) : c ∈ pyStripL l := by
  have h1 : c ∈ l.dropWhile pyIsSpace := by
    rcases List.mem_append.mp ((List.takeWhile_append_dropWhile (p := pyIsSpace) (l := l)) ▸ hc) with h1 | h1
    · exact absurd (List.mem_takeWhile_imp h1) hns
    · exact h1
  have h2 : c ∈ (l.dropWhile pyIsSpace).reverse.dropWhile pyIsSpace := by
    have hcr : c ∈ (l.dropWhile pyIsSpace).reverse := List.mem_reverse.mpr h1
    rcases List.mem_append.mp
        ((List.takeWhile_append_dropWhile (p := pyIsSpace)
          (l := (l.dropWhile pyIsSpace).reverse)) ▸ hcr) with h2 | h2
    · exact absurd (List.mem_takeWhile_imp h2) hns
    · exact h2
  exact List.mem_reverse.mpr h2

theorem mem_expandtabs8_of_not_tab :
    ∀ (s : List Char) (col : Nat) (c : Char), c ∈ s → c ≠ '\t' →
      c ∈ expandtabs8 s col := by
  intro s
  induction s with
  | nil => intro col c hc; cases hc
  | cons a rest ih =>
    intro col c hc htab
    rw [expandtabs8]
    rcases List.mem_cons.mp hc with rfl | hc
    · have h1 : (c == '\t') = false := by
        simp [htab]
      rw [if_neg (by simp [h1])]
      by_cases h2 : (c == '\n' || c == '\r') = true
      · rw [if_pos h2]; exact List.mem_cons_self _ _
      · rw [if_neg h2]; exact List.mem_cons_self _ _
    · by_cases h1 : (a == '\t') = true
      · rw [if_pos h1]
        exact List.mem_append_right _ (ih _ c hc htab)
      · rw [if_neg h1]
        by_cases h2 : (a == '\n' || a == '\r') = true
        · rw [if_pos h2]; exact List.mem_cons_of_mem a (ih 0 c hc htab)
        · rw [if_neg h2]; exact List.mem_cons_of_mem a (ih _ c hc htab)

theorem asciiWs_of_pyIsSpace_subset {c : Char} (h : asciiWs c) : pyIsSpace c := by
  simp only [asciiWs, Bool.or_eq_true, beq_iff_eq] at h
  rcases h with ((((h | h) | h) | h) | h) | h
  · subst h; decide
  · subst h; decide
  · subst h; decide
  · simp only [pyIsSpace, decide_eq_true_eq]; omega
  · simp only [pyIsSpace, decide_eq_true_eq]; omega
  · subst h; decide

/-- A non-whitespace character survives `munge` unchanged. -/
theorem mem_munge_of_not_space {s : List Char} {c : Char} (hc : c ∈ s)
    (hns : ¬ pyIsSpace c) : c ∈ munge s := by
  have htab : c ≠ '\t' := by
    intro h; subst h; exact hns (by decide)
  have hws : ¬ asciiWs c := by
    intro h
    exact hns (asciiWs_of_pyIsSpace_subset h)
  have h1 : c ∈ expandtabs8 s 0 := mem_expandtabs8_of_not_tab s 0 c hc htab
  simp only [munge, translateWs, List.mem_map]
  exact ⟨c, h1, by rw [if_neg hws]⟩

/-- Tokens concatenate back to the input (with enough fuel). -/
theorem tokenizeGo_flatten :
    ∀ (fuel : Nat) (prevRev s : List Char), s.length < fuel →
      (tokenizeGo fuel prevRev s).flatten = s := by
  intro fuel
  induction fuel with
  | zero => intro _ _ h; omega
  | succ n ih =>
    intro prevRev s hlen
    cases s with
    | nil => rfl
    | cons c rest =>
      rw [tokenizeGo]
      set tok := nextToken prevRev (c :: rest) with htokdef
      have htokne : tok ≠ [] := nextToken_ne prevRev (by simp)
      obtain ⟨t, ht⟩ := nextToken_front prevRev (c :: rest)
      rw [← htokdef] at ht
      have hdrop : (c :: rest).drop tok.length = t := by
        rw [← ht, List.drop_left]
      have htlen : t.length < n := by
        have h1 := congrArg List.length ht
        simp only [List.length_append, List.length_cons] at h1
        have hpos : 1 ≤ tok.length := List.length_pos.mpr htokne
        simp only [List.length_cons] at hlen
        omega
      simp only [List.flatten_cons, hdrop, ih _ t htlen, ht]

theorem tokenize_flatten (s : List Char) : (tokenize s).flatten = s :=
  tokenizeGo_flatten _ [] s (by omega)

theorem handleLongWord_piece_pos (M : Nat) (c : List Char) (hM : 1 ≤ M)
    (hc : c ≠ []) : (handleLongWord M 0 c).1 ≠ [] := by
  have hM' : ¬ M < 1 := by omega
  simp only [handleLongWord, hM', if_false, Nat.sub_zero]
  have hlen : 1 ≤ c.length := List.length_pos.mpr hc
  have hne : ∀ e, 1 ≤ e → c.take e ≠ [] := by
    intro e he
    have h1 : (c.take e).length = min e c.length := List.length_take e c
    intro h0
    rw [h0] at h1
    simp only [List.length_nil] at h1
    omega
  by_cases h1 : M < c.length
  · rw [if_pos h1]
    cases hr : rfindHyphen c M with
    | some h =>
      by_cases h2 : (0 < h && (c.take h).any (fun d => !(d == '-'))) = true
      · simp only [h2, if_true]
        exact hne (h + 1) (by omega)
      · rw [Bool.not_eq_true] at h2
        simp only [h2, if_false]
        exact hne M hM
    | none => exact hne M hM
  · rw [if_neg h1]
    exact hne M hM

/-- Every loop iteration consumes at least one character. -/
theorem wrapStep_consumes (M : Nat) (hM : 1 ≤ M) (first : Bool)
    (chunks : List (List Char)) (hch : chunks ≠ []) (hne : AllNE chunks) :
    sumLen (wrapStep M first chunks).2 < sumLen chunks := by
  rw [wrapStep]
  have hcore : ∀ (cs : List (List Char)), AllNE cs → cs ≠ [] →
      sumLen (wrapCore M cs).2 < sumLen cs := by
    intro cs hcsne hcs
    have hpos : 1 ≤ sumLen cs := by
      cases hcc : cs with
      | nil => exact absurd hcc hcs
      | cons a r =>
        have h1 : a ≠ [] := hcsne a (hcc ▸ List.mem_cons_self a r)
        have h2 : 1 ≤ a.length := List.length_pos.mpr h1
        simp only [sumLen_cons]
        omega
    rcases hpq : takeGreedy M 0 cs with ⟨taken, rest⟩
    have hpapp : taken ++ rest = cs := by
      have h1 := takeGreedy_append M 0 cs
      rw [hpq] at h1
      exact h1
    cases rest with
    | nil =>
      simp only [wrapCore, hpq]
      split <;> simpa using hpos
    | cons c0 r =>
      have hc0 : c0 ≠ [] :=
        hcsne c0 (hpapp ▸ List.mem_append_right _ (List.mem_cons_self c0 r))
      have hsum : sumLen cs = sumLen taken + (c0.length + sumLen r) := by
        rw [← hpapp]; simp
      by_cases hlen : M < c0.length
      · -- long-word split: a nonempty piece is removed from the head chunk
        simp only [wrapCore, hpq, hlen, if_true]
        rcases hhw : handleLongWord M (sumLen taken) c0 with ⟨piece, rem⟩
        have happ : piece ++ rem = c0 := by
          have h1 := handleLongWord_append M (sumLen taken) c0
          rw [hhw] at h1
          exact h1
        have hpiece : 1 ≤ piece.length ∨ 1 ≤ sumLen taken := by
          cases htk : taken with
          | nil =>
            left
            have h1 := handleLongWord_piece_pos M c0 hM hc0
            rw [htk] at hhw
            simp only [sumLen_nil] at hhw
            rw [hhw] at h1
            exact List.length_pos.mpr h1
          | cons a t =>
            right
            have h1 : a ≠ [] :=
              hcsne a (hpapp ▸ List.mem_append_left _ (htk ▸ List.mem_cons_self a t))
            have h2 : 1 ≤ a.length := List.length_pos.mpr h1
            simp only [htk, sumLen_cons]
            omega
        have hremlen : rem.length + piece.length = c0.length := by
          have h1 := congrArg List.length happ
          simp only [List.length_append] at h1
          omega
        split <;> simp only [sumLen_cons] <;> omega
      · simp only [wrapCore, hpq, hlen, if_false]
        -- no split: the greedy prefix must be nonempty, since the head fits
        have htaken : taken ≠ [] := by
          intro h0
          rw [h0] at hpq
          cases hcc : cs with
          | nil => exact hcs hcc
          | cons a t =>
            rw [hcc, takeGreedy] at hpq
            by_cases hfit : 0 + a.length ≤ M
            · rw [if_pos hfit] at hpq
              cases hpq
            · rw [if_neg hfit] at hpq
              have ha : a = c0 := by
                have h1 := congrArg Prod.snd hpq
                simp only at h1
                exact (List.cons.injEq _ _ _ _).mp h1 |>.1
              subst ha
              omega
        have hpos2 : 1 ≤ sumLen taken := by
          cases htk : taken with
          | nil => exact absurd htk htaken
          | cons a t =>
            have h1 : a ≠ [] :=
              hcsne a (hpapp ▸ List.mem_append_left _ (htk ▸ List.mem_cons_self a t))
            have h2 : 1 ≤ a.length := List.length_pos.mpr h1
            simp only [htk, sumLen_cons]
            omega
        split <;> simp only [sumLen_cons] <;> omega
  cases chunks with
  | nil => exact absurd rfl hch
  | cons d t =>
    simp only [dropLead]
    by_cases hd : (!first && pyStripL d == []) = true
    · rw [if_pos hd]
      have hdne : d ≠ [] := hne d (List.mem_cons_self d t)
      have hdpos : 1 ≤ d.length := List.length_pos.mpr hdne
      cases t with
      | nil =>
        rw [show wrapCore M [] = (none, []) from rfl]
        simp only [sumLen_cons, sumLen_nil]
        omega
      | cons e u =>
        have h1 := hcore (e :: u) (fun x hx => hne x (List.mem_cons_of_mem d hx)) (by simp)
        simp only [sumLen_cons] at h1 ⊢
        omega
    · rw [if_neg hd]
      exact hcore (d :: t) hne (by simp)

theorem pyStripL_append_nil {a b : List Char} (ha : pyStripL a = [])
    (hb : pyStripL b = []) : pyStripL (a ++ b) = [] := by
  rw [pyStripL_eq_nil_iff] at ha hb ⊢
  intro c hc
  rcases List.mem_append.mp hc with h | h
  · exact ha c h
  · exact hb c h

theorem dropTrail_eq_nil {l : List (List Char)} (h : dropTrail l = []) :
    l = [] ∨ ∃ x, l = [x] ∧ pyStripL x = [] := by
  unfold dropTrail at h
  cases hq : l.getLast? with
  | none =>
    left
    exact List.getLast?_eq_none_iff.mp hq
  | some last =>
    rw [hq] at h
    have h' : (if (pyStripL last == []) = true then l.dropLast else l) = [] := h
    by_cases hl : (pyStripL last == []) = true
    · rw [if_pos hl] at h' 
      right
      have hlne : l ≠ [] := by
        intro h0; subst h0; simp at hq
      have hlast : l.getLast hlne = last := by
        have h1 := List.getLast?_eq_getLast l hlne
        rw [hq] at h1
        exact ((Option.some.injEq _ _).mp h1).symm
      have hl2 : l = l.dropLast ++ [l.getLast hlne] :=
        (List.dropLast_append_getLast hlne).symm
      rw [h'] at hl2
      refine ⟨last, ?_, by simpa using hl⟩
      rw [hl2, hlast]
      rfl
    · rw [if_neg hl] at h'
      subst h'
      simp at hq

theorem wrapCore_none_strip (M : Nat) (cs rest2 : List (List Char))
    (h : wrapCore M cs = (none, rest2)) (hrest : ∀ c ∈ rest2, pyStripL c = []) :
    ∀ c ∈ cs, pyStripL c = [] := by
  rcases hpq : takeGreedy M 0 cs with ⟨taken, rest⟩
  have hpapp : taken ++ rest = cs := by
    have h1 := takeGreedy_append M 0 cs
    rw [hpq] at h1
    exact h1
  cases rest with
  | nil =>
    simp only [wrapCore, hpq] at h
    have hdt : dropTrail taken = [] := by
      by_cases h0 : (dropTrail taken).isEmpty
      · exact List.isEmpty_iff.mp h0
      · rw [if_neg h0] at h
        cases h
    have htk : ∀ c ∈ taken, pyStripL c = [] := by
      rcases dropTrail_eq_nil hdt with h1 | ⟨x, h1, h2⟩
      · intro c hc; rw [h1] at hc; cases hc
      · intro c hc
        rw [h1] at hc
        rcases List.mem_singleton.mp hc with rfl
        exact h2
    intro c hc
    rw [← hpapp, List.append_nil] at hc
    exact htk c hc
  | cons c0 r =>
    by_cases hlen : M < c0.length
    · simp only [wrapCore, hpq, hlen, if_true] at h
      rcases hhw : handleLongWord M (sumLen taken) c0 with ⟨piece, rem⟩
      rw [hhw] at h
      have happ : piece ++ rem = c0 := by
        have h1 := handleLongWord_append M (sumLen taken) c0
        rw [hhw] at h1
        exact h1
      have hdt : dropTrail (taken ++ [piece]) = [] ∧ rest2 = rem :: r := by
        by_cases h0 : (dropTrail (taken ++ [piece])).isEmpty
        · rw [if_pos h0] at h
          exact ⟨List.isEmpty_iff.mp h0, ((Prod.mk.injEq _ _ _ _).mp h).2.symm⟩
        · rw [if_neg h0] at h
          cases h
      obtain ⟨hdt, hrest2⟩ := hdt
      rcases dropTrail_eq_nil hdt with h1 | ⟨x, h1, h2⟩
      · exact absurd (congrArg List.length h1) (by simp)
      · have htknil : taken = [] ∧ piece = x := by
          cases htk : taken with
          | nil =>
            rw [htk] at h1
            simp only [List.nil_append] at h1
            exact ⟨rfl, (List.cons.injEq _ _ _ _).mp h1 |>.1⟩
          | cons a t =>
            rw [htk] at h1
            have h2 := congrArg List.length h1
            simp at h2
        obtain ⟨htknil, rfl⟩ := htknil
        have hremstrip : pyStripL rem = [] := by
          apply hrest
          rw [hrest2]
          exact List.mem_cons_self rem r
        have hc0strip : pyStripL c0 = [] := by
          rw [← happ]
          exact pyStripL_append_nil h2 hremstrip
        intro c hc
        rw [← hpapp, htknil, List.nil_append] at hc
        rcases List.mem_cons.mp hc with rfl | hc
        · exact hc0strip
        · apply hrest
          rw [hrest2]
          exact List.mem_cons_of_mem rem hc
    · simp only [wrapCore, hpq, hlen, if_false] at h
      have hdt : dropTrail taken = [] ∧ rest2 = c0 :: r := by
        by_cases h0 : (dropTrail taken).isEmpty
        · rw [if_pos h0] at h
          exact ⟨List.isEmpty_iff.mp h0, ((Prod.mk.injEq _ _ _ _).mp h).2.symm⟩
        · rw [if_neg h0] at h
          cases h
      obtain ⟨hdt, hrest2⟩ := hdt
      have htk : ∀ c ∈ taken, pyStripL c = [] := by
        rcases dropTrail_eq_nil hdt with h1 | ⟨x, h1, h2⟩
        · intro c hc; rw [h1] at hc; cases hc
        · intro c hc
          rw [h1] at hc
          rcases List.mem_singleton.mp hc with rfl
          exact h2
      intro c hc
      rw [← hpapp] at hc
      rcases List.mem_append.mp hc with hc | hc
      · exact htk c hc
      · apply hrest
        rw [hrest2]
        exact hc

theorem wrapStep_none_strip (M : Nat) (first : Bool) (chunks rest2 : List (List Char))
    (hstep : wrapStep M first chunks = (none, rest2))
    (hrest : ∀ c ∈ rest2, pyStripL c = []) :
    ∀ c ∈ chunks, pyStripL c = [] := by
  rw [wrapStep] at hstep
  cases chunks with
  | nil => intro c hc; cases hc
  | cons d t =>
    simp only [dropLead] at hstep
    by_cases hd : (!first && pyStripL d == []) = true
    · rw [if_pos hd] at hstep
      have hds : pyStripL d = [] := by
        have := (Bool.and_eq_true _ _).mp hd |>.2
        simpa using this
      intro c hc
      rcases List.mem_cons.mp hc with rfl | hc
      · exact hds
      · exact wrapCore_none_strip M t rest2 hstep hrest c hc
    · rw [if_neg hd] at hstep
      exact wrapCore_none_strip M (d :: t) rest2 hstep hrest

theorem pyStripL_eq_rdrop (l : List Char) :
    pyStripL l = List.rdropWhile pyIsSpace (l.dropWhile pyIsSpace) := rfl

theorem length_dropWhile_le (p : Char → Bool) :
    ∀ (l : List Char), (l.dropWhile p).length ≤ l.length := by
  intro l
  induction l with
  | nil => simp
  | cons c t ih =>
    rw [List.dropWhile_cons]
    by_cases h : p c
    · rw [if_pos h]
      simp only [List.length_cons]
      omega
    · rw [if_neg h]

theorem pyStripL_idem (l : List Char) : pyStripL (pyStripL l) = pyStripL l := by
  rw [pyStripL_eq_rdrop, pyStripL_eq_rdrop]
  set y := l.dropWhile pyIsSpace with hy
  have hyy : List.dropWhile pyIsSpace y = y := by
    rw [hy]
    exact List.dropWhile_idempotent pyIsSpace l
  have hdw : List.dropWhile pyIsSpace (List.rdropWhile pyIsSpace y) =
      List.rdropWhile pyIsSpace y := by
    cases hm : List.rdropWhile pyIsSpace y with
    | nil => rfl
    | cons c t =>
      have hpre := List.rdropWhile_prefix (p := pyIsSpace) (l := y)
      rw [hm] at hpre
      obtain ⟨u, hu⟩ := hpre
      have hyc : y = c :: (t ++ u) := by
        rw [← hu]
        simp
      have hpc : ¬ pyIsSpace c = true := by
        intro hpc
        rw [hyc, List.dropWhile_cons, if_pos hpc] at hyy
        have h1 := congrArg List.length hyy
        have h2 := length_dropWhile_le pyIsSpace (t ++ u)
        simp only [List.length_cons] at h1
        omega
      rw [List.dropWhile_cons, if_neg hpc]
  rw [hdw]
  exact List.rdropWhile_idempotent pyIsSpace y

theorem exists_not_space_of_pyStrip {text : String} (h : pyStrip text ≠ "") :
    ∃ c ∈ (pyStrip text).data, ¬ pyIsSpace c := by
  by_contra h0
  push_neg at h0
  have hall : ∀ c ∈ pyStripL text.data, pyIsSpace c := by
    intro c hc
    have := h0 c hc
    simpa using this
  have h1 : pyStripL (pyStripL text.data) = [] := pyStripL_eq_nil_iff.mpr hall
  rw [pyStripL_idem] at h1
  apply h
  show String.mk (pyStripL text.data) = ""
  rw [h1]

/-- If the loop produces no lines, every chunk was pure whitespace. -/
theorem wrapLoop_empty_all_ws (M : Nat) (hM : 1 ≤ M) :
    ∀ (fuel : Nat) (first : Bool) (chunks : List (List Char)), AllNE chunks →
      sumLen chunks < fuel → wrapLoop M fuel first chunks = [] →
      ∀ c ∈ chunks, pyStripL c = [] := by
  intro fuel
  induction fuel with
  | zero => intro _ _ _ h _ _ _; omega
  | succ n ih =>
    intro first chunks hne hfuel h0
    cases chunks with
    | nil => intro c hc; cases hc
    | cons d t =>
      rw [wrapLoop] at h0
      cases hstep : wrapStep M first (d :: t) with
      | mk oline rest2 =>
        rw [hstep] at h0
        cases oline with
        | some line => cases h0
        | none =>
          have hcons0 := wrapStep_consumes M hM first (d :: t) (by simp) hne
          rw [hstep] at hcons0
          have hcons : sumLen rest2 < sumLen (d :: t) := hcons0
          have hne2 : AllNE rest2 := by
            have := (wrapStep_spec M hM first (d :: t) hne).2.1
            rw [hstep] at this
            exact this
          have hrest := ih first rest2 hne2 (by omega) h0
          exact wrapStep_none_strip M first (d :: t) rest2 hstep hrest

theorem dropWhile_eq_self_of_not (p : Char → Bool) :
    ∀ (l : List Char), (∀ c ∈ l, ¬ p c) → l.dropWhile p = l := by
  intro l h
  cases l with
  | nil => rfl
  | cons c t =>
    rw [List.dropWhile_cons, if_neg]
    simpa using h c (List.mem_cons_self c t)

theorem pyStripL_self_of_not_space {l : List Char}
    (h : ∀ c ∈ l, ¬ pyIsSpace c) : pyStripL l = l := by
  rw [pyStripL_eq_rdrop, dropWhile_eq_self_of_not pyIsSpace l h, List.rdropWhile,
    dropWhile_eq_self_of_not pyIsSpace l.reverse
      (fun c hc => h c (List.mem_reverse.mp hc)),
    List.reverse_reverse]

theorem expandtabs8_id :
    ∀ (s : List Char), (∀ c ∈ s, c ≠ '\t') → ∀ col, expandtabs8 s col = s := by
  intro s
  induction s with
  | nil => intro _ _; rfl
  | cons a rest ih =>
    intro h col
    have ha : (a == '\t') = false := by
      simpa using h a (List.mem_cons_self a rest)
    have hrest := ih fun c hc => h c (List.mem_cons_of_mem a hc)
    rw [expandtabs8, if_neg (by simp [ha])]
    by_cases h2 : (a == '\n' || a == '\r') = true
    · rw [if_pos h2, hrest 0]
    · rw [if_neg h2, hrest (col + 1)]

theorem translateWs_id {s : List Char} (h : ∀ c ∈ s, ¬ asciiWs c) :
    translateWs s = s := by
  simp only [translateWs]
  rw [List.map_congr_left (fun c hc => by rw [if_neg (by simpa using h c hc)])]
  exact List.map_id s

theorem munge_id {s : List Char} (h : ∀ c ∈ s, ¬ asciiWs c) : munge s = s := by
  have htab : ∀ c ∈ s, c ≠ '\t' := by
    intro c hc h0
    subst h0
    exact h _ hc (by decide)
  rw [munge, expandtabs8_id s htab 0, translateWs_id h]

theorem laEmdash_false_of_head {c : Char} (r : List Char) (hc : c ≠ '-') :
    laEmdash (c :: r) = false := by
  have h0 : hyphenRunLen (c :: r) = 0 := by
    simp [hyphenRunLen, List.takeWhile_cons, hc]
  simp [laEmdash, h0]

theorem wordTokenGo_full (prevRev : List Char) :
    ∀ (rest consumedRev : List Char), (∀ x ∈ rest, ¬ asciiWs x ∧ x ≠ '-') →
      wordTokenGo prevRev consumedRev rest = consumedRev.length + rest.length := by
  intro rest
  induction rest with
  | nil => intro consumedRev _; rfl
  | cons c r ih =>
    intro consumedRev h
    obtain ⟨hws, hhy⟩ := h c (List.mem_cons_self c r)
    have hc : (c == '-') = false := by simpa using hhy
    have hws' : asciiWs c = false := by simpa using hws
    rw [wordTokenGo, if_neg (by simp [hc]), if_neg (by simp [hws']),
      if_neg (by simp [laEmdash_false_of_head r hhy]),
      ih (c :: consumedRev) (fun x hx => h x (List.mem_cons_of_mem c hx))]
    simp only [List.length_cons]
    omega

theorem tokenize_single_word {s : List Char} (hne : s ≠ [])
    (h : ∀ c ∈ s, ¬ asciiWs c ∧ c ≠ '-') : tokenize s = [s] := by
  cases s with
  | nil => exact absurd rfl hne
  | cons c rest =>
    have hc : asciiWs c = false := by
      simpa using (h c (List.mem_cons_self c rest)).1
    have htok : nextToken [] (c :: rest) = c :: rest := by
      rw [nextToken, if_neg (by simp [hc]), if_neg (by simp [headWordPunct])]
      rw [show wordToken [] (c :: rest) = wordTokenGo [] [c] rest from rfl]
      rw [wordTokenGo_full [] rest [c] (fun x hx => h x (List.mem_cons_of_mem c hx))]
      simp only [List.length_singleton]
      rw [show (1 + rest.length) = (c :: rest).length by simp [Nat.add_comm]]
      exact List.take_length _
    rw [tokenize, tokenizeGo, htok, List.drop_length, tokenizeGo_nil]

theorem rfindHyphenAux_none :
    ∀ (l : List Char) (i : Nat), (∀ c ∈ l, c ≠ '-') → rfindHyphenAux l i = none := by
  intro l
  induction l with
  | nil => intro _ _; rfl
  | cons c t ih =>
    intro i h
    rw [rfindHyphenAux, ih (i + 1) (fun x hx => h x (List.mem_cons_of_mem c hx))]
    rw [if_neg (by simpa using h c (List.mem_cons_self c t))]

theorem handleLongWord_no_hyphen {w : List Char} (M : Nat) (hM : 1 ≤ M)
    (h : ∀ c ∈ w, c ≠ '-') : handleLongWord M 0 w = (w.take M, w.drop M) := by
  have hM' : ¬ M < 1 := by omega
  have hnone : rfindHyphen w M = none :=
    rfindHyphenAux_none (w.take M) 0 fun c hc => h c (List.mem_of_mem_take hc)
  simp only [handleLongWord, hM', if_false, Nat.sub_zero]
  by_cases h1 : M < w.length
  · rw [if_pos h1, hnone]
  · rw [if_neg h1]

theorem chopGo_nil (M fuel : Nat) : chopGo M fuel [] = [] := by
  cases fuel <;> rfl

theorem dropTrail_singleton_of_strip_ne {w : List Char} (h : pyStripL w ≠ []) :
    dropTrail [w] = [w] := by
  unfold dropTrail
  rw [List.getLast?_singleton]
  show (if (pyStripL w == []) = true then ([w] : List (List Char)).dropLast else [w]) = [w]
  rw [if_neg (by simpa using h)]

theorem wrapLoop_single_word (M : Nat) (hM : 1 ≤ M) :
    ∀ (fuel : Nat) (first : Bool) (w : List Char), w ≠ [] →
      (∀ c ∈ w, ¬ pyIsSpace c ∧ c ≠ '-') → w.length < fuel →
      wrapLoop M fuel first [w] = chopGo M fuel w := by
  intro fuel
  induction fuel with
  | zero => intro _ _ _ _ h; omega
  | succ n ih =>
    intro first w hne h hfuel
    have hstrip : pyStripL w = w := pyStripL_self_of_not_space fun c hc => (h c hc).1
    have hstripne : (pyStripL w == []) = false := by
      rw [hstrip]
      simpa using hne
    have hsne : pyStripL w ≠ [] := by
      rw [hstrip]
      exact hne
    have hdl : dropLead first [w] = [w] := by
      simp only [dropLead]
      rw [if_neg (by simp [hstripne])]
    cases hw : w with
    | nil => exact absurd hw hne
    | cons c rest =>
      rw [← hw]
      rw [wrapLoop]
      by_cases hfit : w.length ≤ M
      · have htg : takeGreedy M 0 [w] = ([w], []) := by
          rw [takeGreedy]
          rw [if_pos (by simpa using hfit)]
          rfl
        have hstep : wrapStep M first [w] = (some w, []) := by
          rw [wrapStep, hdl]
          simp only [wrapCore, htg]
          rw [dropTrail_singleton_of_strip_ne hsne]
          simp
        have hchop : chopGo M (n + 1) w = [w] := by
          rw [hw]
          rw [chopGo]
          rw [← hw, List.take_of_length_le hfit, List.drop_eq_nil_of_le hfit, chopGo_nil]
        rw [hstep]
        show w :: wrapLoop M n false [] = chopGo M (n + 1) w
        rw [wrapLoop_nil, hchop]
      · have hlt : M < w.length := Nat.not_le.mp hfit
        have htg : takeGreedy M 0 [w] = ([], [w]) := by
          rw [takeGreedy]
          rw [if_neg (by simpa using hfit)]
        have hhw : handleLongWord M (sumLen []) w = (w.take M, w.drop M) :=
          handleLongWord_no_hyphen M hM fun c hc => (h c hc).2
        have htake_ne : w.take M ≠ [] := by
          intro h0
          have h1 := congrArg List.length h0
          simp only [List.length_take, List.length_nil] at h1
          omega
        have htake_strip : pyStripL (w.take M) ≠ [] := by
          rw [pyStripL_self_of_not_space fun c hc => (h c (List.mem_of_mem_take hc)).1]
          exact htake_ne
        have hstep : wrapStep M first [w] = (some (w.take M), [w.drop M]) := by
          rw [wrapStep, hdl]
          simp only [wrapCore, htg, hlt, if_true, hhw]
          simp only [List.nil_append]
          rw [dropTrail_singleton_of_strip_ne htake_strip]
          simp
        have hdrop_ne : w.drop M ≠ [] := by
          intro h0
          have h1 := congrArg List.length h0
          simp only [List.length_drop, List.length_nil] at h1
          omega
        have hrec := ih false (w.drop M) hdrop_ne
          (fun c hc => h c (List.mem_of_mem_drop hc))
          (by simp only [List.length_drop]; omega)
        have hchop : chopGo M (n + 1) w = w.take M :: chopGo M n (w.drop M) := by
          rw [hw]
          rw [chopGo]
        rw [hstep]
        show w.take M :: wrapLoop M n false [w.drop M] = chopGo M (n + 1) w
        rw [hrec, hchop]

/-- A chunked text containing a non-whitespace character yields at least one
chunk. -/
theorem wrapL_ne_nil {M : Nat} (hM : 1 ≤ M) {s : List Char}
    (h : ∃ c ∈ s, ¬ pyIsSpace c) : wrapL M s ≠ [] := by
  obtain ⟨c, hc, hns⟩ := h
  intro h0
  simp only [wrapL] at h0
  have hmem : c ∈ munge s := mem_munge_of_not_space hc hns
  have hflat : c ∈ (tokenize (munge s)).flatten := by
    rw [tokenize_flatten]
    exact hmem
  obtain ⟨tok, htok, hctok⟩ := List.mem_flatten.mp hflat
  have hstrip := wrapLoop_empty_all_ws M hM _ true (tokenize (munge s))
    (tokenize_allNE (munge s)) (by omega) h0 tok htok
  rw [pyStripL_eq_nil_iff] at hstrip
  exact hns (hstrip c hctok)

theorem wrapLoop_invariant (M : Nat) (hM : 1 ≤ M) :
    ∀ (fuel : Nat) (first : Bool) (chunks : List (List Char)), AllNE chunks →
      ∀ line ∈ wrapLoop M fuel first chunks,
        line ≠ [] ∧ line.length ≤ M ∧ ∀ ch ∈ line, ch ∈ chunks.flatten := by
  intro fuel
  induction fuel with
  | zero => intro first chunks _ line hl; cases hl
  | succ n ih =>
    intro first chunks hne line hl
    cases chunks with
    | nil => cases hl
    | cons c rest =>
      obtain ⟨h1, h2, h3⟩ := wrapStep_spec M hM first (c :: rest) hne
      cases hstep : (wrapStep M first (c :: rest)) with
      | mk oline rest2 =>
        rw [hstep] at h1 h2 h3
        cases oline with
        | some l =>
          simp only [wrapLoop, hstep] at hl
          rcases List.mem_cons.mp hl with rfl | hl
          · exact h1 line rfl
          · obtain ⟨a, b, cc⟩ := ih false rest2 h2 line hl
            exact ⟨a, b, fun ch hch => h3 ch (cc ch hch)⟩
        | none =>
          simp only [wrapLoop, hstep] at hl
          obtain ⟨a, b, cc⟩ := ih first rest2 h2 line hl
          exact ⟨a, b, fun ch hch => h3 ch (cc ch hch)⟩

end TextWrap

namespace TextWrap

/-- Accumulator-based splitting of a character list into its maximal
whitespace-free runs (`acc` holds the current word reversed). -/
def wordsAux : List Char → List Char → List (List Char)
  | acc, [] => if acc = [] then [] else [acc.reverse]
  | acc, c :: rest =>
    if asciiWs c then
      if acc = [] then wordsAux [] rest else acc.reverse :: wordsAux [] rest
    else wordsAux (c :: acc) rest

/-- The maximal whitespace-free runs (words) of a character list, whitespace
taken to be the chunker's recognised whitespace set. -/
def wordsOf (s : List Char) : List (List Char) :=
  wordsAux [] s

/-- The word chunks of a chunk list (those not made of whitespace only). -/
def filterWords (cs : List (List Char)) : List (List Char) :=
  cs.filter fun c => !(c.all asciiWs)

theorem wordsAux_flush {b : List Char} (acc : List Char) (hacc : acc ≠ [])
    (hb : b = [] ∨ ∃ c r, b = c :: r ∧ asciiWs c) :
    wordsAux acc b = acc.reverse :: wordsAux [] b := by
  rcases hb with rfl | ⟨c, r, rfl, hc⟩
  · rw [wordsAux, if_neg hacc]
    rfl
  · rw [wordsAux, if_pos hc, if_neg hacc, wordsAux, if_pos hc, if_pos rfl]

theorem wordsAux_ws_run :
    ∀ (g b : List Char), (∀ c ∈ g, asciiWs c) → wordsAux [] (g ++ b) = wordsAux [] b := by
  intro g
  induction g with
  | nil => intro b _; rfl
  | cons c g' ih =>
    intro b h
    rw [List.cons_append, wordsAux, if_pos (h c (List.mem_cons_self c g')), if_pos rfl]
    exact ih b fun x hx => h x (List.mem_cons_of_mem c hx)

theorem wordsAux_word :
    ∀ (w acc b : List Char), (∀ c ∈ w, ¬ asciiWs c) →
      wordsAux acc (w ++ b) = wordsAux (w.reverse ++ acc) b := by
  intro w
  induction w with
  | nil => intro acc b _; rfl
  | cons c w' ih =>
    intro acc b h
    rw [List.cons_append, wordsAux,
      if_neg (by simpa using h c (List.mem_cons_self c w')),
      ih (c :: acc) b fun x hx => h x (List.mem_cons_of_mem c hx)]
    simp

theorem wordsOf_word_cons {w b : List Char} (hw : w ≠ [])
    (hnw : ∀ c ∈ w, ¬ asciiWs c)
    (hb : b = [] ∨ ∃ c r, b = c :: r ∧ asciiWs c) :
    wordsOf (w ++ b) = w :: wordsOf b := by
  rw [wordsOf, wordsAux_word w [] b hnw, List.append_nil,
    wordsAux_flush w.reverse (by simpa using hw) hb, List.reverse_reverse]
  rfl

theorem wordsAux_sep :
    ∀ (a : List Char) (acc X : List Char),
      wordsAux acc (a ++ ' ' :: X) = wordsAux acc a ++ wordsAux [] X := by
  intro a
  induction a with
  | nil =>
    intro acc X
    by_cases hacc : acc = []
    · subst hacc
      simp [wordsAux, show asciiWs ' ' = true by decide]
    · simp [wordsAux, hacc, show asciiWs ' ' = true by decide]
  | cons c a' ih =>
    intro acc X
    by_cases hc : asciiWs c = true
    · simp only [List.cons_append, wordsAux, hc, if_true]
      split <;> simp [ih]
    · have hc' : asciiWs c = false := by simpa using hc
      simp only [List.cons_append, wordsAux, hc', Bool.false_eq_true, if_false]
      exact ih (c :: acc) X

theorem wordsOf_intercalate :
    ∀ (ls : List (List Char)),
      wordsOf (List.intercalate [' '] ls) = (ls.map wordsOf).flatten := by
  intro ls
  induction ls with
  | nil => rfl
  | cons a as ih =>
    cases as with
    | nil =>
      show wordsOf (List.intercalate [' '] [a]) = wordsOf a ++ []
      rw [List.append_nil]
      congr 1
      simp [List.intercalate]
    | cons b t =>
      have hstep : List.intercalate [' '] (a :: b :: t) =
          a ++ ' ' :: List.intercalate [' '] (b :: t) := by
        simp [List.intercalate, List.intersperse]
      rw [hstep]
      show wordsAux [] (a ++ ' ' :: List.intercalate [' '] (b :: t)) = _
      rw [wordsAux_sep a [] (List.intercalate [' '] (b :: t))]
      rw [show wordsAux [] (List.intercalate [' '] (b :: t)) =
        wordsOf (List.intercalate [' '] (b :: t)) from rfl, ih]
      simp [wordsOf]

theorem wordsAux_cons_congr {A B : List Char}
    (h : ∀ acc, wordsAux acc A = wordsAux acc B) (c : Char) (acc : List Char) :
    wordsAux acc (c :: A) = wordsAux acc (c :: B) := by
  by_cases hc : asciiWs c = true
  · rw [wordsAux, wordsAux, if_pos hc, if_pos hc]
    by_cases hacc : acc = []
    · rw [if_pos hacc, if_pos hacc, h []]
    · rw [if_neg hacc, if_neg hacc, h []]
  · have hc' : asciiWs c = false := by simpa using hc
    rw [wordsAux, wordsAux, if_neg (by simp [hc']), if_neg (by simp [hc']), h (c :: acc)]

theorem wordsAux_ws_head_congr {c d : Char} (hc : asciiWs c = true)
    (hd : asciiWs d = true) (A : List Char) (acc : List Char) :
    wordsAux acc (c :: A) = wordsAux acc (d :: A) := by
  rw [wordsAux, wordsAux, if_pos hc, if_pos hd]

theorem wordsAux_translateWs :
    ∀ (s acc : List Char), wordsAux acc (translateWs s) = wordsAux acc s := by
  intro s
  induction s with
  | nil => intro _; rfl
  | cons c rest ih =>
    intro acc
    rw [show translateWs (c :: rest) =
      (if asciiWs c then ' ' else c) :: translateWs rest from rfl]
    by_cases hc : asciiWs c = true
    · rw [if_pos hc]
      rw [wordsAux_ws_head_congr (by decide) hc (translateWs rest) acc]
      exact wordsAux_cons_congr ih c acc
    · rw [if_neg (by simp [Bool.eq_false_iff.mpr hc])]
      exact wordsAux_cons_congr ih c acc

theorem wordsAux_replicate_space :
    ∀ (k : Nat) (X acc : List Char), 1 ≤ k →
      wordsAux acc (List.replicate k ' ' ++ X) = wordsAux acc (' ' :: X) := by
  intro k
  cases k with
  | zero => intro _ _ h; omega
  | succ k' =>
    intro X acc _
    rw [List.replicate_succ, List.cons_append]
    have hrun : wordsAux [] (List.replicate k' ' ' ++ X) = wordsAux [] X :=
      wordsAux_ws_run (List.replicate k' ' ') X fun c hc => by
        rw [List.eq_of_mem_replicate hc]
        decide
    rw [wordsAux, if_pos (show asciiWs ' ' = true by decide)]
    rw [wordsAux, if_pos (show asciiWs ' ' = true by decide)]
    rw [hrun]

theorem wordsAux_expandtabs8 :
    ∀ (s : List Char) (col : Nat) (acc : List Char),
      wordsAux acc (expandtabs8 s col) = wordsAux acc s := by
  intro s
  induction s with
  | nil => intro _ _; rfl
  | cons c rest ih =>
    intro col acc
    rw [expandtabs8]
    by_cases h1 : (c == '\t') = true
    · rw [if_pos h1]
      have hk : 1 ≤ 8 - col % 8 := by omega
      rw [wordsAux_replicate_space _ _ acc hk]
      have hc : c = '\t' := by simpa using h1
      subst hc
      rw [wordsAux_ws_head_congr (c := ' ') (d := '\t') (by decide) (by decide)
        (expandtabs8 rest (col + (8 - col % 8))) acc]
      exact wordsAux_cons_congr (fun a => ih _ a) '\t' acc
    · rw [if_neg h1]
      by_cases h2 : (c == '\n' || c == '\r') = true
      · rw [if_pos h2]
        exact wordsAux_cons_congr (fun a => ih 0 a) c acc
      · rw [if_neg h2]
        exact wordsAux_cons_congr (fun a => ih (col + 1) a) c acc

theorem wordsOf_munge (s : List Char) : wordsOf (munge s) = wordsOf s := by
  rw [wordsOf, munge, wordsAux_translateWs, wordsAux_expandtabs8]
  rfl

theorem wordsAux_mapNl :
    ∀ (s acc : List Char),
      wordsAux acc (s.map fun c => if c == '\n' then ' ' else c) = wordsAux acc s := by
  intro s
  induction s with
  | nil => intro _; rfl
  | cons c rest ih =>
    intro acc
    rw [List.map_cons]
    by_cases hc : (c == '\n') = true
    · rw [if_pos hc]
      have hc' : c = '\n' := by simpa using hc
      subst hc'
      rw [wordsAux_ws_head_congr (c := ' ') (d := '\n') (by decide) (by decide) _ acc]
      exact wordsAux_cons_congr ih '\n' acc
    · rw [if_neg hc]
      exact wordsAux_cons_congr ih c acc

/-- The alternating word/gap structure of the chunk lists produced by the
tokenizer on hyphen-free text whose whitespace is all ASCII: chunks strictly
alternate between nonempty whitespace-free words and nonempty runs of
spaces.  `Alt true` lists start with a word (or are empty), `Alt false`
lists start with a gap (or are empty). -/
inductive Alt : Bool → List (List Char) → Prop
  | nil (b : Bool) : Alt b []
  | word (w : List Char) (rest : List (List Char)) (hne : w ≠ [])
      (hok : ∀ c ∈ w, ¬ pyIsSpace c ∧ c ≠ '-') (h : Alt false rest) :
      Alt true (w :: rest)
  | gap (g : List Char) (rest : List (List Char)) (hne : g ≠ [])
      (hok : ∀ c ∈ g, c = ' ') (h : Alt true rest) : Alt false (g :: rest)

theorem Alt.allNE {b : Bool} {cs : List (List Char)} (h : Alt b cs) : AllNE cs := by
  induction h with
  | nil => intro c hc; cases hc
  | word w rest hne hok hrest ih =>
    intro c hc
    rcases List.mem_cons.mp hc with rfl | hc
    · exact hne
    · exact ih c hc
  | gap g rest hne hok hrest ih =>
    intro c hc
    rcases List.mem_cons.mp hc with rfl | hc
    · exact hne
    · exact ih c hc

theorem word_not_all_ws {w : List Char} (hne : w ≠ [])
    (hok : ∀ c ∈ w, ¬ pyIsSpace c) : (w.all asciiWs) = false := by
  cases w with
  | nil => exact absurd rfl hne
  | cons c t =>
    simp only [List.all_cons, Bool.and_eq_false_iff]
    left
    have := hok c (List.mem_cons_self c t)
    rw [Bool.eq_false_iff]
    intro h0
    exact this (asciiWs_of_pyIsSpace_subset h0)

theorem gap_all_ws {g : List Char} (hok : ∀ c ∈ g, c = ' ') :
    (g.all asciiWs) = true := by
  rw [List.all_eq_true]
  intro c hc
  rw [hok c hc]
  decide

theorem alt_split_replace :
    ∀ (xs : List (List Char)) (b : Bool) (ys : List (List Char)),
      Alt b (xs ++ ys) →
      ∃ bj, Alt bj ys ∧ ∀ zs, Alt bj zs → Alt b (xs ++ zs) := by
  intro xs
  induction xs with
  | nil =>
    intro b ys h
    exact ⟨b, h, fun zs hz => hz⟩
  | cons x xs' ih =>
    intro b ys h
    rw [List.cons_append] at h
    cases h with
    | word _ _ hne hok hrest =>
      obtain ⟨bj, h1, h2⟩ := ih false ys hrest
      exact ⟨bj, h1, fun zs hz => Alt.word x (xs' ++ zs) hne hok (h2 zs hz)⟩
    | gap _ _ hne hok hrest =>
      obtain ⟨bj, h1, h2⟩ := ih true ys hrest
      exact ⟨bj, h1, fun zs hz => Alt.gap x (xs' ++ zs) hne hok (h2 zs hz)⟩

theorem alt_gap_head {g : List Char} {rest : List (List Char)} {b : Bool}
    (h : Alt b (g :: rest)) (hgok : ∀ c ∈ g, c = ' ') (hgne : g ≠ []) :
    b = false ∧ Alt true rest := by
  cases h with
  | word _ _ hne hok hrest =>
    cases g with
    | nil => exact absurd rfl hgne
    | cons c t =>
      have h1 := (hok c (List.mem_cons_self c t)).1
      have h2 := hgok c (List.mem_cons_self c t)
      rw [h2] at h1
      exact absurd (by decide) h1
  | gap _ _ hne hok hrest => exact ⟨rfl, hrest⟩

theorem alt_word_head {w : List Char} {rest : List (List Char)} {b : Bool}
    (h : Alt b (w :: rest)) (hwok : ∀ c ∈ w, ¬ pyIsSpace c) (hwne : w ≠ []) :
    b = true ∧ Alt false rest := by
  cases h with
  | word _ _ hne hok hrest => exact ⟨rfl, hrest⟩
  | gap _ _ hne hok hrest =>
    cases w with
    | nil => exact absurd rfl hwne
    | cons c t =>
      have h1 := hwok c (List.mem_cons_self c t)
      have h2 := hok c (List.mem_cons_self c t)
      rw [h2] at h1
      exact absurd (by decide) h1

/-- The alternation flag matching the head of a munged suffix: `true` when
the next token will be a word. -/
def headFlag : List Char → Bool
  | [] => true
  | c :: _ => !(c == ' ')

theorem dropWhile_head_not (p : Char → Bool) :
    ∀ (l : List Char) {d : Char} {t : List Char}, l.dropWhile p = d :: t → p d = false := by
  intro l
  induction l with
  | nil => intro d t h; cases h
  | cons c r ih =>
    intro d t h
    rw [List.dropWhile_cons] at h
    by_cases hc : p c = true
    · rw [if_pos hc] at h
      exact ih h
    · rw [if_neg hc] at h
      injection h with h1 h2
      rw [← h1]
      exact Bool.eq_false_iff.mpr hc

theorem drop_takeWhile_length (p : Char → Bool) (l : List Char) :
    l.drop (l.takeWhile p).length = l.dropWhile p := by
  induction l with
  | nil => rfl
  | cons c r ih =>
    rw [List.takeWhile_cons, List.dropWhile_cons]
    by_cases h : p c = true
    · rw [if_pos h, if_pos h, List.length_cons, List.drop_succ_cons, ih]
    · rw [if_neg h, if_neg h]
      rfl

theorem take_takeWhile_length (p : Char → Bool) (l : List Char) :
    l.take (l.takeWhile p).length = l.takeWhile p := by
  induction l with
  | nil => rfl
  | cons c r ih =>
    rw [List.takeWhile_cons]
    by_cases h : p c = true
    · rw [if_pos h, List.length_cons, List.take_succ_cons, ih]
    · rw [if_neg h]
      rfl

theorem wordTokenGo_takeWhile (prevRev : List Char) :
    ∀ (rest consumedRev : List Char),
      (∀ x ∈ rest, asciiWs x ∨ (¬ pyIsSpace x ∧ x ≠ '-')) →
      wordTokenGo prevRev consumedRev rest =
        consumedRev.length + (rest.takeWhile fun x => !(asciiWs x)).length := by
  intro rest
  induction rest with
  | nil => intro consumedRev _; rfl
  | cons c r ih =>
    intro consumedRev h
    have hgc := h c (List.mem_cons_self c r)
    have hchy : (c == '-') = false := by
      rcases hgc with hgc | hgc
      · simp only [beq_eq_false_iff_ne, ne_eq]
        intro h0
        rw [h0] at hgc
        exact absurd hgc (by decide)
      · simpa using hgc.2
    rw [wordTokenGo, if_neg (by simp [hchy])]
    rcases hgc with hgc | hgc
    · rw [if_pos hgc, List.takeWhile_cons, if_neg (by simp [hgc])]
      rfl
    · have hcws : asciiWs c = false := by
        rw [Bool.eq_false_iff]
        intro h0
        exact hgc.1 (asciiWs_of_pyIsSpace_subset h0)
      rw [if_neg (by simp [hcws])]
      have hhy : c ≠ '-' := hgc.2
      rw [if_neg (by simp [laEmdash_false_of_head r hhy])]
      rw [ih (c :: consumedRev) fun x hx => h x (List.mem_cons_of_mem c hx)]
      rw [List.takeWhile_cons, if_pos (by simp [hcws])]
      simp only [List.length_cons]
      omega

/-- The tokenizer on hyphen-free munged text produces an alternating
word/gap chunk list, starting as the head character dictates. -/
theorem tokenizeGo_alt :
    ∀ (fuel : Nat) (s prevRev : List Char), s.length < fuel →
      (∀ c ∈ s, c = ' ' ∨ (¬ pyIsSpace c ∧ c ≠ '-')) →
      Alt (headFlag s) (tokenizeGo fuel prevRev s) := by
  intro fuel
  induction fuel with
  | zero => intro _ _ h; omega
  | succ n ih =>
    intro s prevRev hlen hgood
    cases s with
    | nil => exact Alt.nil true
    | cons c rest =>
      rw [tokenizeGo]
      by_cases hc : c = ' '
      · -- gap token
        have hcw : asciiWs c = true := by rw [hc]; decide
        have htok : nextToken prevRev (c :: rest) = (c :: rest).takeWhile asciiWs := by
          rw [nextToken, if_pos hcw]
        have htokne : (c :: rest).takeWhile asciiWs ≠ [] := by
          rw [List.takeWhile_cons, if_pos hcw]
          simp
        have htokws : ∀ x ∈ (c :: rest).takeWhile asciiWs, x = ' ' := by
          intro x hx
          have h1 : asciiWs x = true := List.mem_takeWhile_imp hx
          have h2 : x ∈ c :: rest := ((List.takeWhile_prefix _).sublist).subset hx
          rcases hgood x h2 with h3 | h3
          · exact h3
          · exact absurd (asciiWs_of_pyIsSpace_subset h1) h3.1
        rw [htok, drop_takeWhile_length]
        have hflag : headFlag (c :: rest) = false := by
          simp [headFlag, hc]
        rw [hflag]
        have hsub : ∀ x ∈ (c :: rest).dropWhile asciiWs, x ∈ c :: rest := by
          intro x hx
          rw [← drop_takeWhile_length] at hx
          exact List.mem_of_mem_drop hx
        have hlen2 : ((c :: rest).dropWhile asciiWs).length < n := by
          rw [← drop_takeWhile_length, List.length_drop]
          have hp : 1 ≤ ((c :: rest).takeWhile asciiWs).length :=
            List.length_pos.mpr htokne
          simp only [List.length_cons] at hlen ⊢
          omega
        have halt := ih ((c :: rest).dropWhile asciiWs)
          (((c :: rest).takeWhile asciiWs).reverse ++ prevRev) hlen2
          fun x hx => hgood x (hsub x hx)
        have hflag2 : headFlag ((c :: rest).dropWhile asciiWs) = true := by
          cases hd : (c :: rest).dropWhile asciiWs with
          | nil => rfl
          | cons d t =>
            have := dropWhile_head_not asciiWs (c :: rest) hd
            simp only [headFlag]
            have hd' : d ≠ ' ' := by
              intro h0
              rw [h0] at this
              exact absurd this (by decide)
            simpa using hd'
        rw [hflag2] at halt
        exact Alt.gap _ _ htokne htokws halt
      · -- word token
        have hgc : ¬ pyIsSpace c ∧ c ≠ '-' := by
          rcases hgood c (List.mem_cons_self c rest) with h1 | h1
          · exact absurd h1 hc
          · exact h1
        have hcw : asciiWs c = false := by
          rw [Bool.eq_false_iff]
          intro h0
          exact hgc.1 (asciiWs_of_pyIsSpace_subset h0)
        have hrestgood : ∀ x ∈ rest, asciiWs x ∨ (¬ pyIsSpace x ∧ x ≠ '-') := by
          intro x hx
          rcases hgood x (List.mem_cons_of_mem c hx) with h1 | h1
          · left; rw [h1]; decide
          · right; exact h1
        have hwtg : wordToken prevRev (c :: rest) =
            1 + (rest.takeWhile fun x => !(asciiWs x)).length := by
          rw [show wordToken prevRev (c :: rest) = wordTokenGo prevRev [c] rest from rfl]
          rw [wordTokenGo_takeWhile prevRev rest [c] hrestgood]
          rfl
        have htwc : (c :: rest).takeWhile (fun x => !(asciiWs x)) =
            c :: rest.takeWhile (fun x => !(asciiWs x)) := by
          rw [List.takeWhile_cons, if_pos (by simp [hcw])]
        have htok : nextToken prevRev (c :: rest) =
            (c :: rest).takeWhile (fun x => !(asciiWs x)) := by
          rw [nextToken, if_neg (by simp [hcw]),
            if_neg (by simp [laEmdash_false_of_head rest hgc.2]), hwtg]
          rw [htwc]
          rw [show (1 + (rest.takeWhile fun x => !(asciiWs x)).length) =
            (c :: rest.takeWhile fun x => !(asciiWs x)).length by
              simp [Nat.add_comm]]
          rw [← htwc, take_takeWhile_length]
        have htokne : (c :: rest).takeWhile (fun x => !(asciiWs x)) ≠ [] := by
          rw [htwc]
          simp
        have htokgood : ∀ x ∈ (c :: rest).takeWhile (fun x => !(asciiWs x)),
            ¬ pyIsSpace x ∧ x ≠ '-' := by
          intro x hx
          have h1 : ¬ asciiWs x = true := by
            simpa using List.mem_takeWhile_imp hx
          have h2 : x ∈ c :: rest := ((List.takeWhile_prefix _).sublist).subset hx
          rcases hgood x h2 with h3 | h3
          · rw [h3] at h1
            exact absurd (by decide) h1
          · exact h3
        rw [htok, drop_takeWhile_length]
        have hflag : headFlag (c :: rest) = true := by
          simp [headFlag, hc]
        rw [hflag]
        have hsub : ∀ x ∈ (c :: rest).dropWhile (fun x => !(asciiWs x)), x ∈ c :: rest := by
          intro x hx
          rw [← drop_takeWhile_length] at hx
          exact List.mem_of_mem_drop hx
        have hlen2 : ((c :: rest).dropWhile (fun x => !(asciiWs x))).length < n := by
          rw [← drop_takeWhile_length, List.length_drop]
          have hp : 1 ≤ ((c :: rest).takeWhile (fun x => !(asciiWs x))).length :=
            List.length_pos.mpr htokne
          simp only [List.length_cons] at hlen ⊢
          omega
        have halt := ih ((c :: rest).dropWhile (fun x => !(asciiWs x)))
          (((c :: rest).takeWhile (fun x => !(asciiWs x))).reverse ++ prevRev) hlen2
          fun x hx => hgood x (hsub x hx)
        have halt2 : Alt false (tokenizeGo n
            (((c :: rest).takeWhile (fun x => !(asciiWs x))).reverse ++ prevRev)
            ((c :: rest).dropWhile (fun x => !(asciiWs x)))) := by
          cases hd : (c :: rest).dropWhile (fun x => !(asciiWs x)) with
          | nil =>
            rw [tokenizeGo_nil]
            exact Alt.nil false
          | cons d t =>
            have hdws := dropWhile_head_not (fun x => !(asciiWs x)) (c :: rest) hd
            have hdg : d = ' ' := by
              have h1 : asciiWs d = true := by simpa using hdws
              rcases hgood d (hsub d (by rw [hd]; exact List.mem_cons_self d t)) with h2 | h2
              · exact h2
              · exact absurd (asciiWs_of_pyIsSpace_subset h1) h2.1
            have : headFlag ((c :: rest).dropWhile (fun x => !(asciiWs x))) = false := by
              rw [hd]
              simp [headFlag, hdg]
            rw [this, hd] at halt
            exact halt
        exact Alt.word _ _ htokne htokgood halt2

/-- On an alternating chunk list, the words of the concatenation are exactly
the word chunks. -/
theorem wordsOf_flatten_alt {b : Bool} {cs : List (List Char)} (h : Alt b cs) :
    wordsOf cs.flatten = filterWords cs := by
  induction h with
  | nil => rfl
  | word w rest hne hok hrest ih =>
    rw [List.flatten_cons]
    have hw : ∀ c ∈ w, ¬ asciiWs c := fun c hc h0 =>
      (hok c hc).1 (asciiWs_of_pyIsSpace_subset h0)
    have hb : rest.flatten = [] ∨ ∃ c r, rest.flatten = c :: r ∧ asciiWs c := by
      cases hrest with
      | nil => left; rfl
      | gap g rest' hgne hgok hrest' =>
        right
        cases g with
        | nil => exact absurd rfl hgne
        | cons x g' =>
          refine ⟨x, g' ++ rest'.flatten, by simp, ?_⟩
          rw [hgok x (List.mem_cons_self x g')]
          decide
    rw [wordsOf_word_cons hne hw hb, ih, filterWords, filterWords,
      List.filter_cons_of_pos]
    rw [word_not_all_ws hne fun c hc => (hok c hc).1]
    rfl
  | gap g rest hne hok hrest ih =>
    rw [List.flatten_cons,
      show wordsOf (g ++ rest.flatten) = wordsOf rest.flatten from
        wordsAux_ws_run g _ fun c hc => by rw [hok c hc]; decide,
      ih, filterWords, filterWords, List.filter_cons_of_neg]
    simp [gap_all_ws hok]

/-- The words contributed by an emitted line (`none` contributes nothing). -/
def optWords : Option (List Char) → List (List Char)
  | some l => wordsOf l
  | none => []

theorem alt_prefix {b : Bool} (xs ys : List (List Char)) (h : Alt b (xs ++ ys)) :
    Alt b xs := by
  obtain ⟨bj, hbj, hrepl⟩ := alt_split_replace xs b ys h
  have h1 := hrepl [] (Alt.nil bj)
  rwa [List.append_nil] at h1

theorem alt_chunk_cases {b : Bool} {cs : List (List Char)} (h : Alt b cs) :
    ∀ ch ∈ cs, (∀ c ∈ ch, ¬ pyIsSpace c ∧ c ≠ '-') ∨ (∀ c ∈ ch, c = ' ') := by
  induction h with
  | nil => intro ch hch; cases hch
  | word w rest hne hok hrest ih =>
    intro ch hch
    rcases List.mem_cons.mp hch with rfl | hch
    · exact Or.inl hok
    · exact ih ch hch
  | gap g rest hne hok hrest ih =>
    intro ch hch
    rcases List.mem_cons.mp hch with rfl | hch
    · exact Or.inr hok
    · exact ih ch hch

theorem filterWords_append (xs ys : List (List Char)) :
    filterWords (xs ++ ys) = filterWords xs ++ filterWords ys := by
  simp [filterWords, List.filter_append]

theorem filterWords_gap_cons {g : List Char} (r : List (List Char))
    (hg : ∀ c ∈ g, c = ' ') : filterWords (g :: r) = filterWords r := by
  rw [filterWords, List.filter_cons_of_neg, filterWords]
  simp [gap_all_ws hg]

/-- Dropping the trailing-whitespace chunk of a line does not change the words
of the line: on an alternating chunk list the dropped chunk is a gap. -/
theorem dropTrail_words {b : Bool} {q1 : List (List Char)} (h : Alt b q1) :
    wordsOf (dropTrail q1).flatten = filterWords q1 := by
  unfold dropTrail
  cases hq : q1.getLast? with
  | none =>
    have h1 : q1 = [] := List.getLast?_eq_none_iff.mp hq
    subst h1
    rfl
  | some last =>
    have hlne : q1 ≠ [] := by
      intro h0
      rw [h0] at hq
      cases hq
    have hlast : last = q1.getLast hlne := by
      have h1 := List.getLast?_eq_getLast q1 hlne
      rw [hq] at h1
      exact (Option.some.injEq _ _).mp h1
    have hdec : q1.dropLast ++ [last] = q1 := by
      rw [hlast]
      exact List.dropLast_append_getLast hlne
    show wordsOf (if (pyStripL last == []) = true then q1.dropLast
      else q1).flatten = filterWords q1
    by_cases hl : (pyStripL last == []) = true
    · rw [if_pos hl]
      have hlmem : last ∈ q1 := by
        rw [← hdec]
        exact List.mem_append_right _ (List.mem_singleton.mpr rfl)
      have hgap : ∀ x ∈ last, x = ' ' := by
        rcases alt_chunk_cases h last hlmem with hw | hg
        · exfalso
          have hlne2 : last ≠ [] := h.allNE last hlmem
          have h2 := pyStripL_self_of_not_space fun x hx => (hw x hx).1
          rw [h2] at hl
          exact hlne2 (by simpa using hl)
        · exact hg
      have haltd : Alt b q1.dropLast := by
        apply alt_prefix q1.dropLast [last]
        rw [hdec]
        exact h
      have hfl : filterWords [last] = [] := by
        rw [filterWords_gap_cons [] hgap]
        rfl
      rw [wordsOf_flatten_alt haltd]
      conv_rhs => rw [← hdec, filterWords_append, hfl, List.append_nil]
    · rw [if_neg hl]
      exact wordsOf_flatten_alt h

/-- One `wrapCore` step on an alternating chunk list with all word chunks
within the width: the alternation survives and the emitted line's words plus
the remaining word chunks are exactly the original word chunks. -/
theorem wrapCore_words (M : Nat) (hM : 1 ≤ M) {b : Bool} {cs : List (List Char)}
    {lineOpt : Option (List Char)} {rest2 : List (List Char)}
    (heq : wrapCore M cs = (lineOpt, rest2))
    (halt : Alt b cs) (hwb : ∀ w ∈ filterWords cs, w.length ≤ M) :
    ∃ b2, Alt b2 rest2 ∧ optWords lineOpt ++ filterWords rest2 = filterWords cs := by
  rcases hpq : takeGreedy M 0 cs with ⟨taken, rest⟩
  have hpapp : taken ++ rest = cs := by
    have h1 := takeGreedy_append M 0 cs
    rw [hpq] at h1
    exact h1
  have hsplit : Alt b (taken ++ rest) := by
    rw [hpapp]
    exact halt
  obtain ⟨bj, hbj, hrepl⟩ := alt_split_replace taken b rest hsplit
  have htaken : Alt b taken := by
    have h1 := hrepl [] (Alt.nil bj)
    rwa [List.append_nil] at h1
  cases rest with
  | nil =>
    simp only [wrapCore, hpq] at heq
    have hfw2 : filterWords cs = filterWords taken := by
      rw [← hpapp, List.append_nil]
    by_cases h0 : (dropTrail taken).isEmpty
    · rw [if_pos h0] at heq
      obtain ⟨rfl, rfl⟩ := (Prod.mk.injEq _ _ _ _).mp heq
      refine ⟨b, Alt.nil b, ?_⟩
      have hdt : dropTrail taken = [] := List.isEmpty_iff.mp h0
      have h3 := dropTrail_words htaken
      rw [hdt] at h3
      have h4 : ([] : List (List Char)) = filterWords taken := h3
      rw [hfw2]
      exact h4
    · rw [if_neg h0] at heq
      obtain ⟨rfl, rfl⟩ := (Prod.mk.injEq _ _ _ _).mp heq
      refine ⟨b, Alt.nil b, ?_⟩
      show wordsOf (dropTrail taken).flatten ++ ([] : List (List Char)) = filterWords cs
      rw [List.append_nil, dropTrail_words htaken, hfw2]
  | cons c0 r =>
    have hc0mem : c0 ∈ cs := by
      rw [← hpapp]
      exact List.mem_append_right _ (List.mem_cons_self c0 r)
    have hc0ne : c0 ≠ [] := halt.allNE c0 hc0mem
    by_cases hlen : M < c0.length
    · -- the oversized chunk must be a gap: word chunks are within the width
      have hcgap : ∀ x ∈ c0, x = ' ' := by
        rcases alt_chunk_cases hbj c0 (List.mem_cons_self c0 r) with hword | hgap
        · exfalso
          have hcf : c0 ∈ filterWords cs := by
            rw [filterWords]
            refine List.mem_filter.mpr ⟨hc0mem, ?_⟩
            simp [word_not_all_ws hc0ne fun x hx => (hword x hx).1]
          have := hwb c0 hcf
          omega
        · exact hgap
      obtain ⟨hbjf, hr⟩ := alt_gap_head hbj hcgap hc0ne
      rcases hhw : handleLongWord M (sumLen taken) c0 with ⟨piece, rem⟩
      simp only [wrapCore, hpq, hlen, if_true, hhw] at heq
      have happ : piece ++ rem = c0 := by
        have h1 := handleLongWord_append M (sumLen taken) c0
        rw [hhw] at h1
        exact h1
      have hpgap : ∀ x ∈ piece, x = ' ' := fun x hx =>
        hcgap x (happ ▸ List.mem_append_left _ hx)
      have hrgap : ∀ x ∈ rem, x = ' ' := fun x hx =>
        hcgap x (happ ▸ List.mem_append_right _ hx)
      have htklen : sumLen taken ≤ M := by
        rcases takeGreedy_bound M 0 cs with h1 | h1 <;> simp only [hpq] at h1
        · rw [h1]
          show sumLen [] ≤ M
          simp [sumLen]
        · simpa using h1
      have hremne : rem ≠ [] := by
        have h1 := handleLongWord_rest_ne M (sumLen taken) c0 hM htklen hlen
        rw [hhw] at h1
        exact h1
      have hdt : dropTrail (taken ++ [piece]) = taken := by
        unfold dropTrail
        rw [List.getLast?_concat]
        show (if (pyStripL piece == []) = true then (taken ++ [piece]).dropLast
          else taken ++ [piece]) = taken
        rw [if_pos (by simpa using pyStripL_eq_nil_of_space hpgap), List.dropLast_concat]
      rw [hdt] at heq
      by_cases h0 : taken.isEmpty
      · rw [if_pos h0] at heq
        obtain ⟨rfl, rfl⟩ := (Prod.mk.injEq _ _ _ _).mp heq
        refine ⟨false, Alt.gap rem r hremne hrgap hr, ?_⟩
        show filterWords (rem :: r) = filterWords cs
        rw [filterWords_gap_cons r hrgap, ← hpapp, List.isEmpty_iff.mp h0,
          List.nil_append, filterWords_gap_cons r hcgap]
      · rw [if_neg h0] at heq
        obtain ⟨rfl, rfl⟩ := (Prod.mk.injEq _ _ _ _).mp heq
        refine ⟨false, Alt.gap rem r hremne hrgap hr, ?_⟩
        show wordsOf taken.flatten ++ filterWords (rem :: r) = filterWords cs
        rw [wordsOf_flatten_alt htaken, filterWords_gap_cons r hrgap, ← hpapp,
          filterWords_append, filterWords_gap_cons r hcgap]
    · simp only [wrapCore, hpq, hlen, if_false] at heq
      by_cases h0 : (dropTrail taken).isEmpty
      · rw [if_pos h0] at heq
        obtain ⟨rfl, rfl⟩ := (Prod.mk.injEq _ _ _ _).mp heq
        refine ⟨bj, hbj, ?_⟩
        have hdt : dropTrail taken = [] := List.isEmpty_iff.mp h0
        have h3 := dropTrail_words htaken
        rw [hdt] at h3
        have h4 : ([] : List (List Char)) = filterWords taken := h3
        show filterWords (c0 :: r) = filterWords cs
        rw [← hpapp, filterWords_append, ← h4]
        rfl
      · rw [if_neg h0] at heq
        obtain ⟨rfl, rfl⟩ := (Prod.mk.injEq _ _ _ _).mp heq
        refine ⟨bj, hbj, ?_⟩
        show wordsOf (dropTrail taken).flatten ++ filterWords (c0 :: r) = filterWords cs
        rw [dropTrail_words htaken, ← hpapp, filterWords_append]

/-- Dropping a leading whitespace chunk keeps the list alternating and
keeps its word chunks. -/
theorem dropLead_alt {b : Bool} (first : Bool) {cs : List (List Char)}
    (h : Alt b cs) :
    ∃ b1, Alt b1 (dropLead first cs) ∧
      filterWords (dropLead first cs) = filterWords cs := by
  cases cs with
  | nil => exact ⟨b, Alt.nil b, rfl⟩
  | cons c rest =>
    by_cases hc : (!first && pyStripL c == []) = true
    · have hstrip : pyStripL c = [] := by
        have h1 := (Bool.and_eq_true _ _).mp hc
        simpa using h1.2
      have hcne : c ≠ [] := h.allNE c (List.mem_cons_self c rest)
      have hcg : ∀ x ∈ c, x = ' ' := by
        rcases alt_chunk_cases h c (List.mem_cons_self c rest) with hw | hg
        · exfalso
          rw [pyStripL_self_of_not_space fun x hx => (hw x hx).1] at hstrip
          exact hcne hstrip
        · exact hg
      obtain ⟨hbf, hrest⟩ := alt_gap_head h hcg hcne
      have hdl : dropLead first (c :: rest) = rest := by
        show (if (!first && pyStripL c == []) = true then rest else c :: rest) = rest
        rw [if_pos hc]
      rw [hdl]
      exact ⟨true, hrest, (filterWords_gap_cons rest hcg).symm⟩
    · have hdl : dropLead first (c :: rest) = c :: rest := by
        show (if (!first && pyStripL c == []) = true then rest else c :: rest) = c :: rest
        rw [if_neg hc]
      rw [hdl]
      exact ⟨b, h, rfl⟩

theorem wrapStep_words (M : Nat) (hM : 1 ≤ M) {first b : Bool}
    {cs : List (List Char)} {lineOpt : Option (List Char)}
    {rest2 : List (List Char)} (heq : wrapStep M first cs = (lineOpt, rest2))
    (halt : Alt b cs) (hwb : ∀ w ∈ filterWords cs, w.length ≤ M) :
    ∃ b2, Alt b2 rest2 ∧ optWords lineOpt ++ filterWords rest2 = filterWords cs := by
  obtain ⟨b1, h1, hfw⟩ := dropLead_alt first halt
  have heq' : wrapCore M (dropLead first cs) = (lineOpt, rest2) := heq
  obtain ⟨b2, h2, hacc⟩ :=
    wrapCore_words M hM heq' h1 fun w hw => hwb w (hfw ▸ hw)
  exact ⟨b2, h2, by rw [hacc, hfw]⟩

/-- The whole wrap loop on an alternating chunk list whose word chunks fit the
width: the words of the emitted lines, in order, are exactly the word
chunks. -/
theorem wrapLoop_words (M : Nat) (hM : 1 ≤ M) :
    ∀ (fuel : Nat) (first b : Bool) (cs : List (List Char)), Alt b cs →
      (∀ w ∈ filterWords cs, w.length ≤ M) → sumLen cs < fuel →
      ((wrapLoop M fuel first cs).map wordsOf).flatten = filterWords cs := by
  intro fuel
  induction fuel with
  | zero => intro first b cs _ _ h; omega
  | succ n ih =>
    intro first b cs halt hwb hfuel
    cases cs with
    | nil => rfl
    | cons c rest =>
      have hcons := wrapStep_consumes M hM first (c :: rest) (by simp) halt.allNE
      cases hstep : wrapStep M first (c :: rest) with
      | mk oline rest2 =>
        obtain ⟨b2, halt2, hacc⟩ := wrapStep_words M hM hstep halt hwb
        rw [hstep] at hcons
        have hcons2 : sumLen rest2 < sumLen (c :: rest) := hcons
        have hfuel2 : sumLen rest2 < n := by
          simp only [sumLen_cons] at hfuel hcons2 ⊢
          omega
        have hwb2 : ∀ w ∈ filterWords rest2, w.length ≤ M := by
          intro w hw
          refine hwb w ?_
          rw [← hacc]
          exact List.mem_append_right _ hw
        cases oline with
        | some l =>
          simp only [wrapLoop, hstep, List.map_cons, List.flatten_cons]
          rw [ih false b2 rest2 halt2 hwb2 hfuel2]
          have hacc2 : wordsOf l ++ filterWords rest2 = filterWords (c :: rest) := hacc
          exact hacc2
        | none =>
          simp only [wrapLoop, hstep]
          rw [ih first b2 rest2 halt2 hwb2 hfuel2]
          have hacc2 : filterWords rest2 = filterWords (c :: rest) := by
            have h1 : ([] : List (List Char)) ++ filterWords rest2 =
              filterWords (c :: rest) := hacc
            rwa [List.nil_append] at h1
          exact hacc2

/-- `tokenize` on hyphen-free space-normalised text alternates. -/
theorem tokenize_alt {s : List Char}
    (h : ∀ c ∈ s, c = ' ' ∨ (¬ pyIsSpace c ∧ c ≠ '-')) :
    Alt (headFlag s) (tokenize s) :=
  tokenizeGo_alt (s.length + 1) s [] (by omega) h

theorem mem_expandtabs8_cases :
    ∀ (s : List Char) (col : Nat) (c : Char), c ∈ expandtabs8 s col →
      c = ' ' ∨ c ∈ s := by
  intro s
  induction s with
  | nil => intro col c hc; cases hc
  | cons a rest ih =>
    intro col c hc
    simp only [expandtabs8] at hc
    by_cases h1 : (a == '\t') = true
    · rw [if_pos h1] at hc
      rcases List.mem_append.mp hc with hc | hc
      · exact Or.inl (List.eq_of_mem_replicate hc)
      · rcases ih _ c hc with h | h
        · exact Or.inl h
        · exact Or.inr (List.mem_cons_of_mem a h)
    · rw [if_neg h1] at hc
      by_cases h2 : (a == '\n' || a == '\r') = true
      · rw [if_pos h2] at hc
        rcases List.mem_cons.mp hc with rfl | hc
        · exact Or.inr (List.mem_cons_self c rest)
        · rcases ih _ c hc with h | h
          · exact Or.inl h
          · exact Or.inr (List.mem_cons_of_mem a h)
      · rw [if_neg h2] at hc
        rcases List.mem_cons.mp hc with rfl | hc
        · exact Or.inr (List.mem_cons_self c rest)
        · rcases ih _ c hc with h | h
          · exact Or.inl h
          · exact Or.inr (List.mem_cons_of_mem a h)

/-- When whitespace of the text is the chunker's own and there is no hyphen,
the munged text's characters are spaces or plain word characters. -/
theorem munge_good {s : List Char} (hws : ∀ c ∈ s, pyIsSpace c → asciiWs c)
    (hhy : ∀ c ∈ s, c ≠ '-') :
    ∀ c ∈ munge s, c = ' ' ∨ (¬ pyIsSpace c ∧ c ≠ '-') := by
  intro c hc
  simp only [munge, translateWs, List.mem_map] at hc
  obtain ⟨x, hx, hxc⟩ := hc
  by_cases h1 : asciiWs x = true
  · rw [if_pos h1] at hxc
    exact Or.inl hxc.symm
  · rw [if_neg h1] at hxc
    subst hxc
    rcases mem_expandtabs8_cases s 0 x hx with h2 | h2
    · rw [h2] at h1
      exact absurd (by decide) h1
    · refine Or.inr ⟨fun hp => h1 (hws x h2 hp), hhy x h2⟩

/-- The words of `textwrap.wrap(s, M)`'s lines, in order, are exactly the
words of `s`, provided `s` has no hyphen, its whitespace is the chunker's
whitespace, and every word fits the width. -/
theorem wrapL_words (M : Nat) (hM : 1 ≤ M) (s : List Char)
    (hws : ∀ c ∈ s, pyIsSpace c → asciiWs c) (hhy : ∀ c ∈ s, c ≠ '-')
    (hwb : ∀ w ∈ wordsOf s, w.length ≤ M) :
    ((wrapL M s).map wordsOf).flatten = wordsOf s := by
  have hgood := munge_good hws hhy
  have halt := tokenize_alt hgood
  have hfw : filterWords (tokenize (munge s)) = wordsOf s := by
    rw [← wordsOf_flatten_alt halt, tokenize_flatten, wordsOf_munge]
  have hwb2 : ∀ w ∈ filterWords (tokenize (munge s)), w.length ≤ M := by
    intro w hw
    exact hwb w (hfw ▸ hw)
  have hloop := wrapLoop_words M hM (sumLen (tokenize (munge s)) + 1) true _ _
    halt hwb2 (by omega)
  show ((wrapLoop M (sumLen (tokenize (munge s)) + 1) true
    (tokenize (munge s))).map wordsOf).flatten = wordsOf s
  rw [hloop, hfw]

/-- Skip a leading whitespace-only chunk of a greedy remainder. -/
def stripGap : List (List Char) → List (List Char)
  | [] => []
  | c :: r => if c.all asciiWs then r else c :: r

/-- The reduced model of one wrap iteration: the chunk suffix still to be
wrapped after one line is emitted (greedy take, then skip the leading
whitespace chunk of the remainder). -/
def advanceC (M : Nat) (cs : List (List Char)) : List (List Char) :=
  stripGap (takeGreedy M 0 cs).2

/-- Line count of the reduced model, with fuel. -/
def countC (M : Nat) : Nat → List (List Char) → Nat
  | 0, _ => 0
  | _ + 1, [] => 0
  | fuel + 1, c :: rest => 1 + countC M fuel (advanceC M (c :: rest))

theorem takeGreedy_rest_suffix (w curLen : Nat) (cs : List (List Char)) :
    (takeGreedy w curLen cs).2 <:+ cs :=
  ⟨(takeGreedy w curLen cs).1, takeGreedy_append w curLen cs⟩

/-- The greedy remainder is monotone: on a later suffix, or with more room,
the remainder is a suffix of the other remainder. -/
theorem takeGreedy_rest_mono (M1 M2 : Nat) :
    ∀ (cs2 cs1 : List (List Char)) (c1 c2 : Nat), cs1 <:+ cs2 →
      (∀ n, c2 + n ≤ M2 → c1 + n ≤ M1) →
      (takeGreedy M1 c1 cs1).2 <:+ (takeGreedy M2 c2 cs2).2 := by
  intro cs2
  induction cs2 with
  | nil =>
    intro cs1 c1 c2 hs _
    rw [List.suffix_nil.mp hs]
    exact List.suffix_refl _
  | cons x cs2' ih =>
    intro cs1 c1 c2 hs hH
    by_cases h2 : c2 + x.length ≤ M2
    · have hr2 : (takeGreedy M2 c2 (x :: cs2')).2 =
          (takeGreedy M2 (c2 + x.length) cs2').2 := by
        simp only [takeGreedy, h2, if_true]
      rcases List.suffix_cons_iff.mp hs with rfl | hs'
      · have h1 : c1 + x.length ≤ M1 := hH x.length h2
        have hr1 : (takeGreedy M1 c1 (x :: cs2')).2 =
            (takeGreedy M1 (c1 + x.length) cs2').2 := by
          simp only [takeGreedy, h1, if_true]
        rw [hr1, hr2]
        refine ih cs2' (c1 + x.length) (c2 + x.length) (List.suffix_refl _) ?_
        intro n hn
        have h3 := hH (x.length + n) (by omega)
        omega
      · rw [hr2]
        refine ih cs1 c1 (c2 + x.length) hs' ?_
        intro n hn
        have h3 := hH (x.length + n) (by omega)
        omega
    · have hr2 : (takeGreedy M2 c2 (x :: cs2')).2 = x :: cs2' := by
        simp only [takeGreedy, h2, if_false]
      rw [hr2]
      exact (takeGreedy_rest_suffix M1 c1 cs1).trans hs

theorem stripGap_suffix (cs : List (List Char)) : stripGap cs <:+ cs := by
  cases cs with
  | nil => exact List.suffix_refl _
  | cons c r =>
    show (if (c.all asciiWs) = true then r else c :: r) <:+ c :: r
    by_cases h : (c.all asciiWs) = true
    · rw [if_pos h]
      exact List.suffix_cons c r
    · rw [if_neg h]

theorem stripGap_mono {cs1 cs2 : List (List Char)} (h : cs1 <:+ cs2) :
    stripGap cs1 <:+ stripGap cs2 := by
  cases cs2 with
  | nil =>
    rw [List.suffix_nil.mp h]
  | cons c r =>
    rcases List.suffix_cons_iff.mp h with rfl | h'
    · exact List.suffix_refl _
    · refine ((stripGap_suffix cs1).trans h').trans ?_
      show r <:+ (if (c.all asciiWs) = true then r else c :: r)
      by_cases hc : (c.all asciiWs) = true
      · rw [if_pos hc]
      · rw [if_neg hc]
        exact List.suffix_cons c r

theorem advanceC_mono {M1 M2 : Nat} (h21 : M2 ≤ M1) {cs1 cs2 : List (List Char)}
    (hs : cs1 <:+ cs2) : advanceC M1 cs1 <:+ advanceC M2 cs2 := by
  refine stripGap_mono (takeGreedy_rest_mono M1 M2 cs2 cs1 0 0 hs ?_)
  intro n hn
  omega

/-- The model's line count only grows when the width shrinks or the input
suffix grows. -/
theorem countC_mono (fuel : Nat) :
    ∀ {M1 M2 : Nat}, M2 ≤ M1 → ∀ {cs1 cs2 : List (List Char)}, cs1 <:+ cs2 →
      countC M1 fuel cs1 ≤ countC M2 fuel cs2 := by
  induction fuel with
  | zero => intro M1 M2 _ cs1 cs2 _; exact Nat.le_refl 0
  | succ n ih =>
    intro M1 M2 h21 cs1 cs2 hs
    cases cs1 with
    | nil => exact Nat.zero_le _
    | cons c1 r1 =>
      cases cs2 with
      | nil => exact absurd (List.suffix_nil.mp hs) (by simp)
      | cons c2 r2 =>
        show 1 + countC M1 n (advanceC M1 (c1 :: r1)) ≤
          1 + countC M2 n (advanceC M2 (c2 :: r2))
        exact Nat.add_le_add_left (ih h21 (advanceC_mono h21 hs)) 1

theorem wrapCore_nil (M : Nat) : wrapCore M [] = (none, []) := rfl

theorem dropTrail_ne_nil_of_head {w : List Char} (t : List (List Char))
    (hw : pyStripL w ≠ []) : dropTrail (w :: t) ≠ [] := by
  intro h0
  rcases dropTrail_eq_nil h0 with h1 | ⟨x, h1, h2⟩
  · cases h1
  · obtain ⟨hwx, -⟩ := (List.cons.injEq _ _ _ _).mp h1
    rw [hwx] at hw
    exact hw h2

/-- After the first line, a leading whitespace chunk is silently dropped:
the loop behaves as if it were not there (when what follows starts with a
non-whitespace chunk, or is empty). -/
theorem wrapLoop_skip_gap (M : Nat) {g : List Char} (hg : pyStripL g = [])
    {r : List (List Char)}
    (hr : r = [] ∨ ∃ w t, r = w :: t ∧ pyStripL w ≠ []) :
    ∀ fuel, wrapLoop M fuel false (g :: r) = wrapLoop M fuel false r := by
  intro fuel
  cases fuel with
  | zero => rfl
  | succ n =>
    have hdl : dropLead false (g :: r) = r := by
      show (if (!false && pyStripL g == []) = true then r else g :: r) = r
      rw [if_pos (by simp [hg])]
    have hstep : wrapStep M false (g :: r) = wrapCore M r := by
      rw [wrapStep, hdl]
    rcases hr with rfl | ⟨w, t, rfl, hw⟩
    · rw [show wrapLoop M (n + 1) false [] = [] from wrapLoop_nil M (n + 1) false]
      rw [wrapLoop, hstep, wrapCore_nil]
      show wrapLoop M n false [] = []
      rw [wrapLoop_nil]
    · have hdl2 : dropLead false (w :: t) = w :: t := by
        show (if (!false && pyStripL w == []) = true then t else w :: t) = w :: t
        rw [if_neg (by simp [hw])]
      have hstep2 : wrapStep M false (w :: t) = wrapCore M (w :: t) := by
        rw [wrapStep, hdl2]
      rw [wrapLoop, wrapLoop, hstep, hstep2]

/-- On a word-headed alternating chunk list whose word chunks fit the width,
the wrap loop emits exactly as many lines as the reduced model counts. -/
theorem wrapLoop_length_countC (M : Nat) :
    ∀ (fuel : Nat) (first : Bool) (cs : List (List Char)), Alt true cs →
      (∀ w ∈ filterWords cs, w.length ≤ M) → sumLen cs < fuel →
      (wrapLoop M fuel first cs).length = countC M fuel cs := by
  intro fuel
  induction fuel with
  | zero => intro first cs _ _ h; omega
  | succ n ih =>
    intro first cs halt hwb hfuel
    cases halt with
    | nil => rfl
    | word w rest hne hok hrest =>
      have halt2 : Alt true (w :: rest) := Alt.word w rest hne hok hrest
      have hwstrip : pyStripL w ≠ [] := by
        rw [pyStripL_self_of_not_space fun c hc => (hok c hc).1]
        exact hne
      have hwmem : w ∈ filterWords (w :: rest) := by
        rw [filterWords]
        refine List.mem_filter.mpr ⟨List.mem_cons_self w rest, ?_⟩
        simp [word_not_all_ws hne fun c hc => (hok c hc).1]
      have hwlen : w.length ≤ M := hwb w hwmem
      have h0w : 0 + w.length ≤ M := by omega
      rcases hgr : takeGreedy M (0 + w.length) rest with ⟨tk, rst⟩
      have hpq : takeGreedy M 0 (w :: rest) = (w :: tk, rst) := by
        simp only [takeGreedy, h0w, if_true, hgr]
      have happ : (w :: tk) ++ rst = w :: rest := by
        have h1 := takeGreedy_append M 0 (w :: rest)
        simp only [hpq] at h1
        exact h1
      have hrest_eq : tk ++ rst = rest := by
        have h1 := (List.cons.injEq _ _ _ _).mp happ
        exact h1.2
      have hdl : dropLead first (w :: rest) = w :: rest := by
        show (if (!first && pyStripL w == []) = true then rest else w :: rest) =
          w :: rest
        rw [if_neg (by simp [hwstrip])]
      have hstep : wrapStep M first (w :: rest) = wrapCore M (w :: rest) := by
        rw [wrapStep, hdl]
      have hne2 : dropTrail (w :: tk) ≠ [] := dropTrail_ne_nil_of_head tk hwstrip
      have hcountC : countC M (n + 1) (w :: rest) =
          1 + countC M n (advanceC M (w :: rest)) := rfl
      cases rst with
      | nil =>
        have hcore : wrapCore M (w :: rest) =
            (some (dropTrail (w :: tk)).flatten, []) := by
          simp only [wrapCore, hpq]
          rw [if_neg (by rw [List.isEmpty_iff]; exact hne2)]
        have hadv : advanceC M (w :: rest) = [] := by
          rw [advanceC, hpq]
          rfl
        rw [wrapLoop, hstep, hcore]
        show ((dropTrail (w :: tk)).flatten :: wrapLoop M n false []).length =
          countC M (n + 1) (w :: rest)
        rw [wrapLoop_nil, hcountC, hadv]
        rw [show countC M n ([] : List (List Char)) = 0 from by cases n <;> rfl]
        rfl
      | cons c0 r =>
        obtain ⟨bj, hbj, -⟩ := alt_split_replace (w :: tk) true (c0 :: r)
          (by rw [happ]; exact halt2)
        have hc0mem : c0 ∈ w :: rest := by
          rw [← happ]
          exact List.mem_append_right _ (List.mem_cons_self c0 r)
        have hc0ne : c0 ≠ [] := halt2.allNE c0 hc0mem
        have hsub : ∀ u ∈ filterWords (c0 :: r), u.length ≤ M := by
          intro u hu
          refine hwb u ?_
          rw [← happ, filterWords_append]
          exact List.mem_append_right _ hu
        have hwpos : 1 ≤ w.length := List.length_pos.mpr hne
        have hc0pos : 1 ≤ c0.length := List.length_pos.mpr hc0ne
        have hsumrest : sumLen rest = sumLen tk + (c0.length + sumLen r) := by
          rw [← hrest_eq]
          simp [sumLen_append]
        rcases alt_chunk_cases hbj c0 (List.mem_cons_self c0 r) with hwd | hgp
        · -- the blocking chunk is a word: it fits, and stays for the next line
          have hc0len : c0.length ≤ M := by
            refine hwb c0 ?_
            rw [← happ, filterWords_append]
            refine List.mem_append_right _ ?_
            rw [filterWords]
            refine List.mem_filter.mpr ⟨List.mem_cons_self c0 r, ?_⟩
            simp [word_not_all_ws hc0ne fun x hx => (hwd x hx).1]
          have hnotlong : ¬ M < c0.length := by omega
          obtain ⟨hbjtrue, -⟩ := alt_word_head hbj (fun x hx => (hwd x hx).1) hc0ne
          subst hbjtrue
          have hcore : wrapCore M (w :: rest) =
              (some (dropTrail (w :: tk)).flatten, c0 :: r) := by
            simp only [wrapCore, hpq, hnotlong, if_false]
            rw [if_neg (by rw [List.isEmpty_iff]; exact hne2)]
          have hadv : advanceC M (w :: rest) = c0 :: r := by
            rw [advanceC, hpq]
            show (if (c0.all asciiWs) = true then r else c0 :: r) = c0 :: r
            rw [if_neg (by simp [word_not_all_ws hc0ne fun x hx => (hwd x hx).1])]
          have hfuel2 : sumLen (c0 :: r) < n := by
            simp only [sumLen_cons] at hfuel ⊢
            omega
          rw [wrapLoop, hstep, hcore]
          show ((dropTrail (w :: tk)).flatten ::
            wrapLoop M n false (c0 :: r)).length = countC M (n + 1) (w :: rest)
          rw [List.length_cons, ih false (c0 :: r) hbj hsub hfuel2, hcountC, hadv]
          omega
        · -- the blocking chunk is a gap: it is consumed up to the next word
          obtain ⟨hbjf, hr2⟩ := alt_gap_head hbj hgp hc0ne
          have hc0strip : pyStripL c0 = [] := pyStripL_eq_nil_of_space hgp
          have hrshape : r = [] ∨ ∃ w2 t, r = w2 :: t ∧ pyStripL w2 ≠ [] := by
            cases hr2 with
            | nil => exact Or.inl rfl
            | word w2 t hne3 hok3 hrest3 =>
              refine Or.inr ⟨w2, t, rfl, ?_⟩
              rw [pyStripL_self_of_not_space fun c hc => (hok3 c hc).1]
              exact hne3
          have hsubr : ∀ u ∈ filterWords r, u.length ≤ M := by
            intro u hu
            refine hsub u ?_
            rw [filterWords_gap_cons r hgp]
            exact hu
          have hfuelr : sumLen r < n := by
            simp only [sumLen_cons] at hfuel
            omega
          have hadv : advanceC M (w :: rest) = r := by
            rw [advanceC, hpq]
            show (if (c0.all asciiWs) = true then r else c0 :: r) = r
            rw [if_pos (gap_all_ws hgp)]
          by_cases hlen : M < c0.length
          · rcases hhw : handleLongWord M (sumLen (w :: tk)) c0 with ⟨piece, rem⟩
            have happ2 : piece ++ rem = c0 := by
              have h1 := handleLongWord_append M (sumLen (w :: tk)) c0
              rw [hhw] at h1
              exact h1
            have hpgap : ∀ x ∈ piece, x = ' ' := fun x hx =>
              hgp x (happ2 ▸ List.mem_append_left _ hx)
            have hrgap : ∀ x ∈ rem, x = ' ' := fun x hx =>
              hgp x (happ2 ▸ List.mem_append_right _ hx)
            have hdt : dropTrail ((w :: tk) ++ [piece]) = w :: tk := by
              unfold dropTrail
              rw [List.getLast?_concat]
              show (if (pyStripL piece == []) = true then
                ((w :: tk) ++ [piece]).dropLast else (w :: tk) ++ [piece]) = w :: tk
              rw [if_pos (by simpa using pyStripL_eq_nil_of_space hpgap),
                List.dropLast_concat]
            have hcore : wrapCore M (w :: rest) =
                (some (w :: tk).flatten, rem :: r) := by
              simp only [wrapCore, hpq, hlen, if_true, hhw]
              rw [hdt]
              rw [if_neg (by rw [List.isEmpty_iff]; simp)]
            have hremstrip : pyStripL rem = [] := pyStripL_eq_nil_of_space hrgap
            rw [wrapLoop, hstep, hcore]
            show ((w :: tk).flatten :: wrapLoop M n false (rem :: r)).length =
              countC M (n + 1) (w :: rest)
            rw [wrapLoop_skip_gap M hremstrip hrshape n,
              List.length_cons, ih false r hr2 hsubr hfuelr, hcountC, hadv]
            omega
          · have hcore : wrapCore M (w :: rest) =
                (some (dropTrail (w :: tk)).flatten, c0 :: r) := by
              simp only [wrapCore, hpq, hlen, if_false]
              rw [if_neg (by rw [List.isEmpty_iff]; exact hne2)]
            rw [wrapLoop, hstep, hcore]
            show ((dropTrail (w :: tk)).flatten ::
              wrapLoop M n false (c0 :: r)).length = countC M (n + 1) (w :: rest)
            rw [wrapLoop_skip_gap M hc0strip hrshape n,
              List.length_cons, ih false r hr2 hsubr hfuelr, hcountC, hadv]
            omega

theorem munge_head_not_ws {c : Char} (r : List Char) (hc : ¬ pyIsSpace c) :
    ∃ t, munge (c :: r) = c :: t := by
  have htab : (c == '\t') = false := by
    simp only [beq_eq_false_iff_ne, ne_eq]
    intro h
    subst h
    exact hc (by decide)
  have hws : asciiWs c = false := by
    rw [Bool.eq_false_iff]
    intro h
    exact hc (asciiWs_of_pyIsSpace_subset h)
  by_cases h2 : (c == '\n' || c == '\r') = true
  · refine ⟨translateWs (expandtabs8 r 0), ?_⟩
    rw [munge, show expandtabs8 (c :: r) 0 = c :: expandtabs8 r 0 from by
      rw [expandtabs8, if_neg (by simp [htab]), if_pos h2], translateWs,
      List.map_cons, if_neg (by simp [hws])]
    rfl
  · refine ⟨translateWs (expandtabs8 r (0 + 1)), ?_⟩
    rw [munge, show expandtabs8 (c :: r) 0 = c :: expandtabs8 r (0 + 1) from by
      rw [expandtabs8, if_neg (by simp [htab]), if_neg h2], translateWs,
      List.map_cons, if_neg (by simp [hws])]
    rfl

/-- A text whose first character is not whitespace still starts with it after
newline replacement and munging, so tokenisation starts on a word. -/
theorem headFlag_munge {s : List Char} (hhead : ∀ c ∈ s.take 1, ¬ pyIsSpace c) :
    headFlag (munge (s.map fun c => if c == '\n' then ' ' else c)) = true := by
  cases s with
  | nil => rfl
  | cons c r =>
    have hc : ¬ pyIsSpace c := by
      refine hhead c ?_
      rw [List.take_succ_cons, List.take_zero]
      exact List.mem_singleton.mpr rfl
    have hcn : (c == '\n') = false := by
      simp only [beq_eq_false_iff_ne, ne_eq]
      intro h
      subst h
      exact hc (by decide)
    rw [List.map_cons, if_neg (by simp [hcn])]
    obtain ⟨t, ht⟩ :=
      munge_head_not_ws (r.map fun c => if c == '\n' then ' ' else c) hc
    rw [ht]
    show (!(c == ' ')) = true
    have hsp : c ≠ ' ' := by
      intro h
      subst h
      exact hc (by decide)
    simpa using hsp

/-- `textwrap.wrap` yields at least as many lines at a smaller width, for
hyphen-free text whose whitespace is the chunker's, which starts on a word,
and whose words all fit the smaller width. -/
theorem wrapL_length_antitone {M1 M2 : Nat} (h21 : M2 ≤ M1) (s : List Char)
    (hws : ∀ c ∈ s, pyIsSpace c → asciiWs c) (hhy : ∀ c ∈ s, c ≠ '-')
    (hhead : headFlag (munge s) = true)
    (hwb : ∀ w ∈ wordsOf s, w.length ≤ M2) :
    (wrapL M1 s).length ≤ (wrapL M2 s).length := by
  have hgood := munge_good hws hhy
  have halt0 := tokenize_alt hgood
  rw [hhead] at halt0
  have hfw : filterWords (tokenize (munge s)) = wordsOf s := by
    rw [← wordsOf_flatten_alt halt0, tokenize_flatten, wordsOf_munge]
  have hwb2 : ∀ w ∈ filterWords (tokenize (munge s)), w.length ≤ M2 :=
    fun w hw => hwb w (hfw ▸ hw)
  have hwb1 : ∀ w ∈ filterWords (tokenize (munge s)), w.length ≤ M1 :=
    fun w hw => le_trans (hwb2 w hw) h21
  have hl1 := wrapLoop_length_countC M1 (sumLen (tokenize (munge s)) + 1) true
    (tokenize (munge s)) halt0 hwb1 (by omega)
  have hl2 := wrapLoop_length_countC M2 (sumLen (tokenize (munge s)) + 1) true
    (tokenize (munge s)) halt0 hwb2 (by omega)
  have hmono := countC_mono (sumLen (tokenize (munge s)) + 1) h21
    (List.suffix_refl (tokenize (munge s)))
  show (wrapLoop M1 (sumLen (tokenize (munge s)) + 1) true
      (tokenize (munge s))).length ≤
    (wrapLoop M2 (sumLen (tokenize (munge s)) + 1) true
      (tokenize (munge s))).length
  rw [hl1, hl2]
  exact hmono

end TextWrap

namespace Nlp

open TextWrap

/-- If the pipeline fails on some chunk, the whole per-chunk loop fails. -/
theorem processChunks_error_of_mem {ε : Type} (f : String → Except ε String)
    (chunks : List String) (c : String) (hc : c ∈ chunks)
    (he : ∃ e, f c = Except.error e) :
    ∃ e, processChunks f chunks = Except.error e := by
  induction chunks with
  | nil => cases hc
  | cons a rest ih =>
    cases hfa : f a with
    | error e => exact ⟨e, by simp [processChunks, hfa]⟩
    | ok r =>
      rcases List.mem_cons.mp hc with rfl | hmem
      · obtain ⟨e, he⟩ := he
        simp [hfa] at he
      · obtain ⟨e, he⟩ := ih hmem
        exact ⟨e, by simp [processChunks, hfa, he]⟩

/-- If the pipeline succeeds on every chunk, the loop returns the outputs in
order. -/
theorem processChunks_ok_of_forall {ε : Type} (f : String → Except ε String)
    (chunks : List String) (h : ∀ c ∈ chunks, ∃ r, f c = Except.ok r) :
    processChunks f chunks = Except.ok (chunks.map fun c => (f c).toOption.getD "") := by
  induction chunks with
  | nil => simp [processChunks]
  | cons a rest ih =>
    obtain ⟨r, hr⟩ := h a (List.mem_cons_self a rest)
    have hrest := ih fun c hc => h c (List.mem_cons_of_mem a hc)
    simp [processChunks, hr, hrest, Except.toOption]

end Nlp

section Claims

open TextWrap Nlp

theorem chop_length_two {s : List Char} {M : Nat}
    (h : M < s.length) : 2 ≤ (chop M s).length := by
  unfold chop
  cases s with
  | nil => simp at h
  | cons c rest =>
    simp only [List.length_cons] at h ⊢
    rw [chopGo]
    cases hd : (c :: rest).drop M with
    | nil =>
      have h1 := congrArg List.length hd
      simp only [List.length_drop, List.length_cons, List.length_nil] at h1
      omega
    | cons d t =>
      rw [chopGo]
      simp

/-- A trimmed non-empty text yields at least one chunk. -/
theorem split_pyStrip_ne_nil (text : String) (M : Nat) (hM : 1 ≤ M)
    (ht : pyStrip text ≠ "") : split_text_into_chunks (pyStrip text) M ≠ [] := by
  obtain ⟨c, hc, hns⟩ := exists_not_space_of_pyStrip ht
  simp only [split_text_into_chunks]
  intro h0
  have h1 : wrapL M ((pyStrip text).data.map fun c => if c == '\n' then ' ' else c) = [] :=
    List.map_eq_nil_iff.mp h0
  have hcn : (c == '\n') = false := by
    simp only [beq_eq_false_iff_ne, ne_eq]
    intro h2
    subst h2
    exact hns (by decide)
  refine wrapL_ne_nil hM ⟨c, ?_, hns⟩ h1
  exact List.mem_map.mpr ⟨c, hc, by rw [hcn]; rfl⟩

/-- C1 (corrected): chunking splits on whitespace boundaries, but a single
word longer than `max_chars` is NOT placed alone in an oversized chunk: with
`break_long_words=True` (the default used by the code) it is cut into
`⌈length / max_chars⌉` consecutive pieces of at most `max_chars` characters.
For a text that is a single word (no whitespace, no hyphens) the chunks are
exactly `chop max_chars word`, and a word longer than `max_chars` yields at
least two chunks. -/
theorem C1_long_word_chopped (w : String) (M : Nat) (hM : 1 ≤ M)
    (hw : ∀ c ∈ w.data, ¬ pyIsSpace c ∧ c ≠ '-') :
    split_text_into_chunks w M = (chop M w.data).map String.mk ∧
    (M < w.data.length → 2 ≤ (split_text_into_chunks w M).length) := by
  have hmap : w.data.map (fun c => if c == '\n' then ' ' else c) = w.data := by
    have h1 : ∀ c ∈ w.data, (if c == '\n' then ' ' else c) = c := by
      intro c hc
      have hnl : c ≠ '\n' := by
        intro h0
        subst h0
        exact (hw _ hc).1 (by decide)
      rw [if_neg (by simpa using hnl)]
    calc w.data.map (fun c => if c == '\n' then ' ' else c)
        = w.data.map (fun c => c) := List.map_congr_left h1
      _ = w.data := by simp
  have heq : split_text_into_chunks w M = (chop M w.data).map String.mk := by
    cases hwd : w.data with
    | nil =>
      simp only [split_text_into_chunks, hmap, hwd]
      rfl
    | cons c0 r0 =>
      rw [← hwd]
      have hne : w.data ≠ [] := by rw [hwd]; simp
      have hws : ∀ c ∈ w.data, ¬ asciiWs c ∧ c ≠ '-' := fun c hc =>
        ⟨fun h0 => (hw c hc).1 (asciiWs_of_pyIsSpace_subset h0), (hw c hc).2⟩
      have hmunge : munge w.data = w.data := munge_id fun c hc => (hws c hc).1
      have htok : tokenize w.data = [w.data] := tokenize_single_word hne hws
      have hsl : sumLen [w.data] = w.data.length := by
        simp [TextWrap.sumLen]
      simp only [split_text_into_chunks, hmap, wrapL, hmunge, htok, hsl]
      rw [wrapLoop_single_word M hM _ true w.data hne hw (by omega)]
      rfl
  refine ⟨heq, fun hlt => ?_⟩
  rw [heq, List.length_map]
  exact chop_length_two hlt

/-- C1 witness: the word `"aaaaa"` with `max_chars = 2` is cut into
`["aa", "aa", "a"]`. -/
theorem C1_long_word_chopped_witness :
    (1 ≤ 2 ∧ ∀ c ∈ ("aaaaa" : String).data, ¬ pyIsSpace c ∧ c ≠ '-') ∧
    split_text_into_chunks "aaaaa" 2 = (chop 2 ("aaaaa" : String).data).map String.mk ∧
    (2 < ("aaaaa" : String).data.length → 2 ≤ (split_text_into_chunks "aaaaa" 2).length) :=
  ⟨⟨by decide, by decide⟩, C1_long_word_chopped "aaaaa" 2 (by decide) (by decide)⟩

/-- C1 counterexample: the claim as stated is false — the word `"aaaaa"`
with `max_chars = 2` is not placed alone in one oversized chunk; it is
broken into three chunks, none exceeding the bound. -/
theorem C1_long_word_chopped_counterexample :
    2 < ("aaaaa" : String).length ∧
    split_text_into_chunks "aaaaa" 2 = ["aa", "aa", "a"] ∧
    ∀ c ∈ split_text_into_chunks "aaaaa" 2, ¬ 2 < c.length :=
  ⟨by decide, by decide, by decide⟩

theorem intercalate_cons_eq (sep : List Char) :
    ∀ (xs : List (List Char)) (x : List Char),
      List.intercalate sep (x :: xs) = x ++ (xs.map fun b => sep ++ b).flatten := by
  intro xs
  induction xs with
  | nil => intro x; simp [List.intercalate]
  | cons y ys ih =>
    intro x
    have hstep : List.intercalate sep (x :: y :: ys) =
        x ++ sep ++ List.intercalate sep (y :: ys) := by
      simp [List.intercalate, List.intersperse]
    rw [hstep, ih y]
    simp [List.append_assoc]

theorem intercalate_go_data (sep : String) :
    ∀ (as : List String) (acc : String),
      (String.intercalate.go acc sep as).data =
        acc.data ++ (as.map fun a => sep.data ++ a.data).flatten := by
  intro as
  induction as with
  | nil => intro acc; simp [String.intercalate.go]
  | cons a as ih =>
    intro acc
    rw [String.intercalate.go, ih]
    simp [String.data_append, List.append_assoc]

theorem joinSpace_data (ls : List String) :
    (joinSpace ls).data = List.intercalate [' '] (ls.map String.data) := by
  cases ls with
  | nil => rfl
  | cons a as =>
    show (String.intercalate " " (a :: as)).data = _
    rw [String.intercalate, intercalate_go_data, List.map_cons,
      intercalate_cons_eq, List.map_map]
    rfl

/-- C2 (corrected): joining the chunks with single spaces does NOT in general
reproduce the whitespace-normalised text — runs of spaces inside one line
survive unchanged and a word longer than `max_chars` is broken into several
words.  What does hold: when the text has no hyphens, every whitespace
character of it is one the chunker recognises, and every word is at most
`max_chars` long, the joined string carries exactly the words of the
original text, in the original order. -/
theorem C2_join_words (T : String) (M : Nat) (hM : 1 ≤ M)
    (hws : ∀ c ∈ T.data, pyIsSpace c → asciiWs c)
    (hhy : ∀ c ∈ T.data, c ≠ '-')
    (hwb : ∀ w ∈ wordsOf T.data, w.length ≤ M) :
    wordsOf (joinSpace (split_text_into_chunks T M)).data = wordsOf T.data := by
  have h1 : ∀ c ∈ T.data.map (fun c => if c == '\n' then ' ' else c),
      pyIsSpace c → asciiWs c := by
    intro c hc hp
    obtain ⟨x, hx, hxc⟩ := List.mem_map.mp hc
    by_cases hnl : (x == '\n') = true
    · rw [if_pos hnl] at hxc
      subst hxc
      decide
    · rw [if_neg hnl] at hxc
      subst hxc
      exact hws x hx hp
  have h2 : ∀ c ∈ T.data.map (fun c => if c == '\n' then ' ' else c),
      c ≠ '-' := by
    intro c hc
    obtain ⟨x, hx, hxc⟩ := List.mem_map.mp hc
    by_cases hnl : (x == '\n') = true
    · rw [if_pos hnl] at hxc
      subst hxc
      decide
    · rw [if_neg hnl] at hxc
      subst hxc
      exact hhy x hx
  have hwEq : wordsOf (T.data.map fun c => if c == '\n' then ' ' else c) =
      wordsOf T.data := wordsAux_mapNl T.data []
  have h3 : ∀ w ∈ wordsOf (T.data.map fun c => if c == '\n' then ' ' else c),
      w.length ≤ M := by
    intro w hw
    rw [hwEq] at hw
    exact hwb w hw
  have hcore := wrapL_words M hM _ h1 h2 h3
  rw [show split_text_into_chunks T M =
    (wrapL M (T.data.map fun c => if c == '\n' then ' ' else c)).map
      (fun l => String.mk l) from rfl]
  rw [joinSpace_data, wordsOf_intercalate, List.map_map, List.map_map]
  rw [← hwEq, ← hcore]
  rfl

/-- C2 witness: `"ab cd"` at width 2 — the joined chunks have the words
`ab`, `cd`, as the original does. -/
theorem C2_join_words_witness :
    ((1 ≤ 2) ∧ (∀ c ∈ ("ab cd" : String).data, pyIsSpace c → asciiWs c) ∧
      (∀ c ∈ ("ab cd" : String).data, c ≠ '-') ∧
      (∀ w ∈ wordsOf ("ab cd" : String).data, w.length ≤ 2)) ∧
    wordsOf (joinSpace (split_text_into_chunks "ab cd" 2)).data =
      wordsOf ("ab cd" : String).data :=
  ⟨⟨by decide, by decide, by decide, by decide⟩,
    C2_join_words "ab cd" 2 (by decide) (by decide) (by decide) (by decide)⟩

/-- C2 counterexample: at width 2 the single 5-character word `"aaaaa"` is
joined back as `"aa aa a"`: the join is not the whitespace-normalised text
(which would be `"aaaaa"` itself) and the words differ. -/
theorem C2_join_words_counterexample :
    joinSpace (split_text_into_chunks "aaaaa" 2) = "aa aa a" ∧
    wordsOf ("aa aa a" : String).data ≠ wordsOf ("aaaaa" : String).data := by
  constructor
  · decide
  · decide

/-- C8 (corrected): the chunk count is NOT monotone in the width in general —
`"a----a"` has 2 chunks at width 3 but 3 chunks at width 4, so shrinking the
width can shrink the count.  What holds: for hyphen-free text whose
whitespace characters the chunker recognises, which does not start with
whitespace, and whose words all fit the narrower width `M2`, shrinking the
width from `M1` to `M2` cannot decrease the chunk count. -/
theorem C8_chunk_count_antitone (T : String) (M1 M2 : Nat) (_hM : 1 ≤ M2)
    (h21 : M2 ≤ M1)
    (hws : ∀ c ∈ T.data, pyIsSpace c → asciiWs c)
    (hhy : ∀ c ∈ T.data, c ≠ '-')
    (hhead : ∀ c ∈ T.data.take 1, ¬ pyIsSpace c)
    (hwb : ∀ w ∈ wordsOf T.data, w.length ≤ M2) :
    (split_text_into_chunks T M1).length ≤
      (split_text_into_chunks T M2).length := by
  have h1 : ∀ c ∈ T.data.map (fun c => if c == '\n' then ' ' else c),
      pyIsSpace c → asciiWs c := by
    intro c hc hp
    obtain ⟨x, hx, hxc⟩ := List.mem_map.mp hc
    by_cases hnl : (x == '\n') = true
    · rw [if_pos hnl] at hxc
      subst hxc
      decide
    · rw [if_neg hnl] at hxc
      subst hxc
      exact hws x hx hp
  have h2 : ∀ c ∈ T.data.map (fun c => if c == '\n' then ' ' else c),
      c ≠ '-' := by
    intro c hc
    obtain ⟨x, hx, hxc⟩ := List.mem_map.mp hc
    by_cases hnl : (x == '\n') = true
    · rw [if_pos hnl] at hxc
      subst hxc
      decide
    · rw [if_neg hnl] at hxc
      subst hxc
      exact hhy x hx
  have hwEq : wordsOf (T.data.map fun c => if c == '\n' then ' ' else c) =
      wordsOf T.data := wordsAux_mapNl T.data []
  have h3 : ∀ w ∈ wordsOf (T.data.map fun c => if c == '\n' then ' ' else c),
      w.length ≤ M2 := by
    intro w hw
    rw [hwEq] at hw
    exact hwb w hw
  have hcore := wrapL_length_antitone h21
    (T.data.map fun c => if c == '\n' then ' ' else c) h1 h2
    (headFlag_munge hhead) h3
  rw [show split_text_into_chunks T M1 = (wrapL M1 (T.data.map fun c =>
      if c == '\n' then ' ' else c)).map (fun l => String.mk l) from rfl]
  rw [show split_text_into_chunks T M2 = (wrapL M2 (T.data.map fun c =>
      if c == '\n' then ' ' else c)).map (fun l => String.mk l) from rfl]
  rw [List.length_map, List.length_map]
  exact hcore

/-- C8 witness: `"ab cd"` at widths 5 ≥ 2 — one chunk at width 5, two at
width 2, and the count does not decrease. -/
theorem C8_chunk_count_antitone_witness :
    (1 ≤ 2 ∧ 2 ≤ 5 ∧ (∀ c ∈ ("ab cd" : String).data, pyIsSpace c → asciiWs c) ∧
      (∀ c ∈ ("ab cd" : String).data, c ≠ '-') ∧
      (∀ c ∈ ("ab cd" : String).data.take 1, ¬ pyIsSpace c) ∧
      (∀ w ∈ wordsOf ("ab cd" : String).data, w.length ≤ 2)) ∧
    (split_text_into_chunks "ab cd" 5).length ≤
      (split_text_into_chunks "ab cd" 2).length :=
  ⟨⟨by decide, by decide, by decide, by decide, by decide, by decide⟩,
    C8_chunk_count_antitone "ab cd" 5 2 (by decide) (by decide) (by decide)
      (by decide) (by decide) (by decide)⟩

/-- C8 counterexample: `"a----a"` yields 2 chunks at width 3 but 3 chunks at
width 4, so the count is not non-decreasing as the width shrinks. -/
theorem C8_chunk_count_antitone_counterexample :
    3 ≤ 4 ∧ (split_text_into_chunks "a----a" 3).length <
      (split_text_into_chunks "a----a" 4).length := by
  constructor
  · decide
  · decide

/-- C3 (confirmed): for every input that reaches the pipeline-invocation
stage (non-empty after trim, valid language pair), the chunk sequence is
non-empty, and when every per-chunk pipeline call succeeds the returned
result is exactly the space-joined concatenation of the per-chunk outputs in
the original chunk order. -/
theorem C3_chunks_nonempty_and_order {ε : Type}
    (summarizer : String → Nat → Nat → Except ε String)
    (pEnAr pArEn : String → Except ε String) (text : String) (mn mx : Nat)
    (ht : pyStrip text ≠ "") :
    (split_text_into_chunks (pyStrip text) 1024 ≠ [] ∧
      ∀ rs, processChunks (fun c => summarizer c mn mx)
          (split_text_into_chunks (pyStrip text) 1024) = Except.ok rs →
        summarize_text summarizer text mn mx = Except.ok (joinSpace rs)) ∧
    (split_text_into_chunks (pyStrip text) 512 ≠ [] ∧
      ∀ rs, processChunks pEnAr (split_text_into_chunks (pyStrip text) 512) =
          Except.ok rs →
        translate_text pEnAr pArEn text "en" "ar" = Except.ok (joinSpace rs)) ∧
    (∀ rs, processChunks pArEn (split_text_into_chunks (pyStrip text) 512) =
        Except.ok rs →
      translate_text pEnAr pArEn text "ar" "en" = Except.ok (joinSpace rs)) := by
  refine ⟨⟨split_pyStrip_ne_nil text 1024 (by omega) ht, ?_⟩,
    ⟨split_pyStrip_ne_nil text 512 (by omega) ht, ?_⟩, ?_⟩
  · intro rs hrs
    simp [summarize_text, ht, hrs]
  · intro rs hrs
    simp [translate_text, runTranslation, ht, hrs]
  · intro rs hrs
    simp [translate_text, runTranslation, ht, hrs]

/-- C3 witness: a concrete short text through an echoing pipeline. -/
theorem C3_chunks_nonempty_and_order_witness :
    pyStrip "hi" ≠ "" ∧
    split_text_into_chunks (pyStrip "hi") 1024 ≠ [] ∧
    summarize_text (ε := Unit) (fun c _ _ => Except.ok c) "hi" 30 250 =
      Except.ok (joinSpace ["hi"]) := by
  have h := C3_chunks_nonempty_and_order (ε := Unit) (fun c _ _ => Except.ok c)
    (fun c => Except.ok c) (fun c => Except.ok c) "hi" 30 250 (by decide)
  exact ⟨by decide, h.1.1, h.1.2 ["hi"] (by rfl)⟩

/-- C10 (confirmed): for every text and every `max_chars ≥ 1`, every chunk
returned by `split_text_into_chunks` has length at most `max_chars`
unconditionally (even when a word is longer than `max_chars`), is nonempty,
and contains no newline character. -/
theorem C10_chunk_invariants (text : String) (M : Nat) (hM : 1 ≤ M) :
    ∀ c ∈ split_text_into_chunks text M, c.length ≤ M ∧ c ≠ "" ∧ '\n' ∉ c.data := by
  intro c hc
  simp only [split_text_into_chunks, List.mem_map] at hc
  obtain ⟨l, hl, rfl⟩ := hc
  simp only [wrapL] at hl
  have hAllNE := tokenize_allNE (munge (text.data.map fun c => if c == '\n' then ' ' else c))
  obtain ⟨hne, hlen, hchars⟩ := wrapLoop_invariant M hM _ true _ hAllNE l hl
  refine ⟨hlen, ?_, ?_⟩
  · intro h0
    apply hne
    have := congrArg String.data h0
    simpa using this
  · intro h0
    have h1 : ('\n' : Char) ∈ l := h0
    have := hchars '\n' h1
    obtain ⟨tok, htok, hmem⟩ := List.mem_flatten.mp this
    exact munge_no_newline _ '\n' (tokenize_chars htok '\n' hmem) rfl

/-- C10 witness: a concrete instance. -/
theorem C10_chunk_invariants_witness :
    1 ≤ 5 ∧ ∀ c ∈ split_text_into_chunks "hello world" 5,
      c.length ≤ 5 ∧ c ≠ "" ∧ '\n' ∉ c.data :=
  ⟨by decide, C10_chunk_invariants "hello world" 5 (by decide)⟩

/-- C9 (confirmed): for every `max_chars ≥ 1`, chunking the empty string or
a whitespace-only string produces no chunks at all.  Whitespace here is the
set of characters the chunker itself recognises as whitespace
(`'\t' '\n' '\x0b' '\x0c' '\r' ' '`, covering the spec's examples). -/
theorem C9_whitespace_only_empty (text : String) (M : Nat) (_hM : 1 ≤ M)
    (hws : ∀ c ∈ text.data, asciiWs c) :
    split_text_into_chunks text M = [] := by
  simp only [split_text_into_chunks]
  suffices h : wrapL M (text.data.map fun c => if c == '\n' then ' ' else c) = [] by
    rw [h]; rfl
  set s' := text.data.map fun c => if c == '\n' then ' ' else c with hs'
  have hws' : ∀ c ∈ s', asciiWs c := by
    intro c hc
    rw [hs'] at hc
    obtain ⟨x, hx, hxc⟩ := List.mem_map.mp hc
    by_cases h0 : x == '\n'
    · rw [← hxc, if_pos h0]; decide
    · rw [← hxc, if_neg h0]; exact hws x hx
  have hsp : ∀ c ∈ munge s', c = ' ' := munge_all_space hws'
  simp only [wrapL]
  by_cases hmn : munge s' = []
  · rw [hmn]
    rw [show tokenize [] = [] from rfl]
    exact wrapLoop_nil M _ true
  · rw [tokenize_all_ws (fun c hc => by rw [hsp c hc]; decide) hmn]
    exact wrapLoop_single_space M _ true _ hsp

/-- C9 witness: a concrete whitespace-only string. -/
theorem C9_whitespace_only_empty_witness :
    1 ≤ 5 ∧ (∀ c ∈ ("   " : String).data, asciiWs c) ∧
    split_text_into_chunks "   " 5 = [] :=
  ⟨by decide, by decide, C9_whitespace_only_empty "   " 5 (by decide) (by decide)⟩

/-- C4 (confirmed): if the underlying pipeline call fails (raises) on any
chunk, the whole `summarize_text` / `translate_text` operation fails with
that error and no partial result built from earlier chunks is returned. -/
theorem C4_pipeline_failure_aborts {ε : Type}
    (summarizer : String → Nat → Nat → Except ε String)
    (pEnAr pArEn : String → Except ε String) (text : String) (mn mx : Nat) :
    ((∃ c ∈ split_text_into_chunks (pyStrip text) 1024,
        ∃ e, summarizer c mn mx = Except.error e) →
      ∃ e, summarize_text summarizer text mn mx = Except.error e) ∧
    ((∃ c ∈ split_text_into_chunks (pyStrip text) 512, ∃ e, pEnAr c = Except.error e) →
      ∃ e, translate_text pEnAr pArEn text "en" "ar" = Except.error e) ∧
    ((∃ c ∈ split_text_into_chunks (pyStrip text) 512, ∃ e, pArEn c = Except.error e) →
      ∃ e, translate_text pEnAr pArEn text "ar" "en" = Except.error e) := by
  refine ⟨?_, ?_, ?_⟩
  · rintro ⟨c, hc, he⟩
    by_cases ht : pyStrip text = ""
    · rw [ht] at hc
      simp [split_text_into_chunks, wrapL, tokenize, munge, expandtabs8,
        translateWs, sumLen, wrapLoop] at hc
    · obtain ⟨e, hpe⟩ := processChunks_error_of_mem
        (fun c => summarizer c mn mx) _ c hc he
      exact ⟨e, by simp [summarize_text, ht, hpe]⟩
  · rintro ⟨c, hc, he⟩
    by_cases ht : pyStrip text = ""
    · rw [ht] at hc
      simp [split_text_into_chunks, wrapL, tokenize, munge, expandtabs8,
        translateWs, sumLen, wrapLoop] at hc
    · obtain ⟨e, hpe⟩ := processChunks_error_of_mem pEnAr _ c hc he
      exact ⟨e, by simp [translate_text, runTranslation, ht, hpe]⟩
  · rintro ⟨c, hc, he⟩
    by_cases ht : pyStrip text = ""
    · rw [ht] at hc
      simp [split_text_into_chunks, wrapL, tokenize, munge, expandtabs8,
        translateWs, sumLen, wrapLoop] at hc
    · obtain ⟨e, hpe⟩ := processChunks_error_of_mem pArEn _ c hc he
      exact ⟨e, by simp [translate_text, runTranslation, ht, hpe]⟩

/-- C4 witness: with a pipeline that fails on every chunk, both operations
fail on the input `"hi"`. -/
theorem C4_pipeline_failure_aborts_witness :
    (∃ c ∈ split_text_into_chunks (pyStrip "hi") 1024,
      ∃ e : Unit, (fun (_ : String) (_ _ : Nat) => (Except.error () : Except Unit String)) c 30 250 =
        Except.error e) ∧
    (∃ e, summarize_text (ε := Unit) (fun _ _ _ => Except.error ()) "hi" 30 250 =
      Except.error e) := by
  refine ⟨⟨"hi", by decide, (), rfl⟩, ?_⟩
  exact (C4_pipeline_failure_aborts (fun _ _ _ => Except.error ())
    (fun _ => Except.error ()) (fun _ => Except.error ()) "hi" 30 250).1
    ⟨"hi", by decide, (), rfl⟩

/-- C5 (corrected): for every text that is non-empty after trimming,
`translate_text` with `source == target` returns the sentinel stating the
languages must differ, for every pair of pipelines (so no pipeline is ever
invoked); a whitespace-only text instead yields the empty-input sentinel. -/
theorem C5_same_language_sentinel {ε : Type}
    (pEnAr pArEn : String → Except ε String) (text lang : String)
    (ht : pyStrip text ≠ "") :
    translate_text pEnAr pArEn text lang lang =
      Except.ok "Source and target languages must be different." := by
  simp [translate_text, ht]

/-- C5 witness: a concrete non-empty text with identical languages, under
always-failing pipelines. -/
theorem C5_same_language_sentinel_witness :
    pyStrip "hi" ≠ "" ∧
    translate_text (ε := Unit) (fun _ => Except.error ()) (fun _ => Except.error ())
      "hi" "en" "en" = Except.ok "Source and target languages must be different." :=
  ⟨by decide, C5_same_language_sentinel _ _ "hi" "en" (by decide)⟩

/-- C5 counterexample: on the empty text the claim fails as stated — the
empty-input sentinel is returned, not the language sentinel. -/
theorem C5_same_language_sentinel_counterexample :
    translate_text (ε := Unit) (fun _ => Except.error ()) (fun _ => Except.error ())
      "" "en" "en" = Except.ok "Please enter some text to translate." ∧
    ("Please enter some text to translate." : String) ≠
      "Source and target languages must be different." :=
  ⟨by rfl, by decide⟩

/-- C6 (corrected): for every text that is non-empty after trimming and
every ordered pair outside `{(en, ar), (ar, en)}` with distinct components,
`translate_text` returns the sentinel listing the supported codes, for every
pair of pipelines (so no pipeline is ever invoked); a whitespace-only text
instead yields the empty-input sentinel. -/
theorem C6_unsupported_pair_sentinel {ε : Type}
    (pEnAr pArEn : String → Except ε String) (text src tgt : String)
    (ht : pyStrip text ≠ "") (hne : src ≠ tgt)
    (h1 : ¬(src = "en" ∧ tgt = "ar")) (h2 : ¬(src = "ar" ∧ tgt = "en")) :
    translate_text pEnAr pArEn text src tgt =
      Except.ok "Unsupported language pair. Use 'en' or 'ar'." := by
  simp [translate_text, ht, hne, h1, h2]

/-- C6 witness: the pair `(en, fr)` on a concrete non-empty text, under
always-failing pipelines. -/
theorem C6_unsupported_pair_sentinel_witness :
    pyStrip "hello" ≠ "" ∧ ("en" : String) ≠ "fr" ∧
    translate_text (ε := Unit) (fun _ => Except.error ()) (fun _ => Except.error ())
      "hello" "en" "fr" = Except.ok "Unsupported language pair. Use 'en' or 'ar'." :=
  ⟨by decide, by decide,
    C6_unsupported_pair_sentinel _ _ "hello" "en" "fr" (by decide) (by decide)
      (by simp) (by simp)⟩

/-- C6 counterexample: on the empty text with the unsupported pair
`(en, fr)` the claim fails as stated — the empty-input sentinel is returned,
not the unsupported-pair sentinel. -/
theorem C6_unsupported_pair_sentinel_counterexample :
    translate_text (ε := Unit) (fun _ => Except.error ()) (fun _ => Except.error ())
      "" "en" "fr" = Except.ok "Please enter some text to translate." ∧
    ("Please enter some text to translate." : String) ≠
      "Unsupported language pair. Use 'en' or 'ar'." :=
  ⟨by rfl, by decide⟩

/-- C7 (confirmed): for every text that is empty after trimming,
`summarize_text` returns the fixed sentinel asking for text, for every
summarization pipeline (so the pipeline is never invoked). -/
theorem C7_empty_input_sentinel {ε : Type}
    (summarizer : String → Nat → Nat → Except ε String) (text : String)
    (mn mx : Nat) (ht : pyStrip text = "") :
    summarize_text summarizer text mn mx =
      Except.ok "Please enter some text to summarize." := by
  simp [summarize_text, ht]

/-- C7 witness: a whitespace-only text under an always-failing pipeline. -/
theorem C7_empty_input_sentinel_witness :
    pyStrip "   " = "" ∧
    summarize_text (ε := Unit) (fun _ _ _ => Except.error ()) "   " 30 250 =
      Except.ok "Please enter some text to summarize." :=
  ⟨by decide, C7_empty_input_sentinel _ "   " 30 250 (by decide)⟩

end Claims
